import Mathlib

/-!
# retoHuffman: a shallow embedding of `huffman.cpp`

The development follows `src/huffman.cpp` function by function.

Modelling conventions.

* A `NodoHuffman*` is a value of the inductive type `NodoHuffman`: the null
  pointer `nulo`, or a node with its four fields.  The trees built by the
  program are never shared, so a pointer is identified with the tree below it.
* `char` is the byte value `0..255` of the character, a `Nat`; it is only ever
  compared for equality and written as one byte.
* `int` is `Int`.  The one addition of two `int` in the program, the sum
  `izquierda->frecuencia + derecha->frecuencia` of `construirArbol`, is
  `sumaInt`: the sum reduced to the 32-bit two's complement range, which is
  what the compiled program computes (the language leaves signed overflow
  undefined).  A table is free of overflow, `sinDesborde`, when the absolute
  values of its counts add up to less than `2^31`.  The counter
  `frecuencias[c]++` of `calcularFrecuencias` counts in `Int`, which agrees
  with the program as long as no byte occurs `2^31` times in the input.
* A `std::string` holding the characters `'0'` and `'1'` is a `List Bool`
  (`'0'` is `false`, `'1'` is `true`).
* A `std::unordered_map` is an association list with distinct keys; the list
  order is the iteration order.  The language leaves that order unspecified:
  every statement about `construirArbol` is made for an arbitrary list.
* `std::priority_queue` is the adaptor over `std::vector` with
  `std::push_heap` / `std::pop_heap`, in the libstdc++ formulation
  (`__push_heap`, `__adjust_heap`).
* A file is the list of its bytes.  Behaviour that C++ leaves undefined
  (reading an uninitialised variable, dereferencing a null pointer, `top()` on
  an empty queue) is the result `Falla.indefinido`; an exception that escapes
  (`std::out_of_range` from `substr`) is `Falla.fueraDeRango`.
* Loops are structural recursions on a counter that bounds the number of
  iterations (the counter is supplied by the caller and is always sufficient).
* `main` is modelled by its exit code, as a function of `argv` and of the
  contents of the files it names.
-/

namespace Huffman

/-! ## Data model (`huffman.h`) -/

/-- A `NodoHuffman*`: null, or a node with `caracter`, `frecuencia`,
`izquierda`, `derecha`. -/
inductive NodoHuffman where
  | nulo : NodoHuffman
  | nodo (caracter : Nat) (frecuencia : Int) (izquierda derecha : NodoHuffman) : NodoHuffman
  deriving DecidableEq, Repr

/-- The ways a run can leave defined, normal behaviour. -/
inductive Falla where
  | indefinido : Falla
  | fueraDeRango : Falla
  deriving DecidableEq, Repr

/-- The constructor `NodoHuffman(c, f)`: both children null. -/
def nuevoNodo (c : Nat) (f : Int) : NodoHuffman := .nodo c f .nulo .nulo

/-- The field `nodo->frecuencia` (read only through non-null pointers). -/
def frecuenciaDe : NodoHuffman → Int
  | .nulo => 0
  | .nodo _ f _ _ => f

/-- The test `!nodo`. -/
def esNulo : NodoHuffman → Bool
  | .nulo => true
  | .nodo _ _ _ _ => false

/-- The test `!nodo->izquierda && !nodo->derecha` on a non-null node. -/
def esHoja : NodoHuffman → Bool
  | .nulo => false
  | .nodo _ _ i d => esNulo i && esNulo d

/-- An `unordered_map<char, V>`: association list in iteration order. -/
abbrev Mapa (V : Type) := List (Nat × V)

/-- Lookup without insertion (`find`). -/
def buscar {V : Type} : Mapa V → Nat → Option V
  | [], _ => none
  | (k, v) :: resto, c => if k = c then some v else buscar resto c

/-- The assignment `m[c] = v`: overwrite the entry of `c`, or add one. -/
def asignar {V : Type} : Mapa V → Nat → V → Mapa V
  | [], c, v => [(c, v)]
  | (k, w) :: resto, c, v => if k = c then (k, v) :: resto else (k, w) :: asignar resto c v

/-- State of an `ArbolHuffman` object. -/
structure ArbolHuffman where
  raiz : NodoHuffman
  codigosHuffman : Mapa (List Bool)
  deriving DecidableEq, Repr

/-- State of a `DescompresorHuffman` object. -/
structure DescompresorHuffman where
  arbol : ArbolHuffman
  deriving DecidableEq, Repr

/-! ## `std::priority_queue` over `std::vector` (libstdc++ heap algorithms) -/

/-- The lambda `comparar` of `construirArbol`. -/
def comparar (a b : NodoHuffman) : Bool := decide (frecuenciaDe a > frecuenciaDe b)

/-- Element access `*(first + i)`. -/
def elem (v : List NodoHuffman) (i : Nat) : NodoHuffman := v.getD i .nulo

/-- The loop of `std::__push_heap(first, holeIndex, topIndex, value, comp)`. -/
def push_heap_aux : Nat → List NodoHuffman → Nat → Nat → NodoHuffman → List NodoHuffman
  | 0, v, holeIndex, _, value => v.set holeIndex value
  | fuel + 1, v, holeIndex, topIndex, value =>
    if holeIndex > topIndex ∧ comparar (elem v ((holeIndex - 1) / 2)) value = true then
      push_heap_aux fuel (v.set holeIndex (elem v ((holeIndex - 1) / 2)))
        ((holeIndex - 1) / 2) topIndex value
    else v.set holeIndex value

/-- The call `std::__push_heap(first, holeIndex, topIndex, value, comp)`. -/
def push_heap_hueco (v : List NodoHuffman) (holeIndex topIndex : Nat) (value : NodoHuffman) :
    List NodoHuffman :=
  push_heap_aux holeIndex v holeIndex topIndex value

/-- The first loop of `std::__adjust_heap`: the hole descends along the
children that `comp` prefers until it has no right child. -/
def adjust_heap_bajar : Nat → List NodoHuffman → Nat → Nat → List NodoHuffman × Nat
  | 0, v, holeIndex, _ => (v, holeIndex)
  | fuel + 1, v, holeIndex, len =>
    if holeIndex < (len - 1) / 2 then
      let derecho := 2 * (holeIndex + 1)
      let secondChild :=
        if comparar (elem v derecho) (elem v (derecho - 1)) = true then derecho - 1 else derecho
      adjust_heap_bajar fuel (v.set holeIndex (elem v secondChild)) secondChild len
    else (v, holeIndex)

/-- The call `std::__adjust_heap(first, holeIndex, len, value, comp)`, `1 ≤ len`. -/
def adjust_heap (v : List NodoHuffman) (holeIndex len : Nat) (value : NodoHuffman) :
    List NodoHuffman :=
  let r := adjust_heap_bajar len v holeIndex len
  let r :=
    if len % 2 = 0 ∧ r.2 = (len - 2) / 2 then
      ((r.1).set r.2 (elem r.1 (2 * (r.2 + 1) - 1)), 2 * (r.2 + 1) - 1)
    else r
  push_heap_hueco r.1 r.2 holeIndex value

/-- The member `priority_queue::push`: `push_back`, then `std::push_heap`. -/
def colaPush (c : List NodoHuffman) (x : NodoHuffman) : List NodoHuffman :=
  push_heap_hueco (c ++ [x]) c.length 0 x

/-- The member `priority_queue::top`: `c.front()`. -/
def colaTop (c : List NodoHuffman) : NodoHuffman := elem c 0

/-- The member `priority_queue::pop`: `std::pop_heap`, then `pop_back`. -/
def colaPop (c : List NodoHuffman) : List NodoHuffman :=
  if c.length > 1 then
    (adjust_heap (c.set (c.length - 1) (elem c 0)) 0 (c.length - 1)
      (elem c (c.length - 1))).dropLast
  else c.dropLast

/-! ## `ArbolHuffman` -/

/-- The sum `a + b` of two `int`, as the machine computes it: modulo `2^32`,
in the range `-2^31 .. 2^31 - 1`. -/
def sumaInt (a b : Int) : Int := (a + b + 2147483648) % 4294967296 - 2147483648

/-- The body of the loop "Paso 2" of `construirArbol`: the two nodes on top of
the queue are removed and their union is pushed. -/
def combinarPaso (cola : List NodoHuffman) : List NodoHuffman :=
  let izquierda := colaTop cola
  let cola1 := colaPop cola
  let derecha := colaTop cola1
  let cola2 := colaPop cola1
  colaPush cola2
    (.nodo 0 (sumaInt (frecuenciaDe izquierda) (frecuenciaDe derecha)) izquierda derecha)

/-- The loop "Paso 2" of `construirArbol`: `while (colaPrioridad.size() > 1)`. -/
def combinar : Nat → List NodoHuffman → List NodoHuffman
  | 0, cola => cola
  | fuel + 1, cola =>
    if cola.length > 1 then combinar fuel (combinarPaso cola) else cola

/-- The loop "Paso 1" of `construirArbol`: one leaf per entry, pushed in iteration order. -/
def encolarHojas (frecuencias : Mapa Int) : List NodoHuffman :=
  frecuencias.foldl (fun cola par => colaPush cola (nuevoNodo par.1 par.2)) []

/-- The method `ArbolHuffman::construirArbol`; the result is the new `raiz`. -/
def construirArbol (frecuencias : Mapa Int) : Except Falla NodoHuffman :=
  let cola := encolarHojas frecuencias
  match combinar cola.length cola with
  | [] => .error .indefinido
  | r :: _ => .ok r

/-- The method `ArbolHuffman::generarCodigos`, threading `codigosHuffman`. -/
def generarCodigos : NodoHuffman → List Bool → Mapa (List Bool) → Mapa (List Bool)
  | .nulo, _, m => m
  | .nodo c f i d, codigoActual, m =>
    let m1 := if esHoja (.nodo c f i d) then asignar m c codigoActual else m
    let m2 := generarCodigos i (codigoActual ++ [false]) m1
    generarCodigos d (codigoActual ++ [true]) m2

/-! ## `CompresorHuffman` -/

/-- The statement `frecuencias[c]++`. -/
def incrementar : Mapa Int → Nat → Mapa Int
  | [], c => [(c, 1)]
  | (k, n) :: resto, c => if k = c then (k, n + 1) :: resto else (k, n) :: incrementar resto c

/-- The method `CompresorHuffman::calcularFrecuencias` on the bytes of the file. -/
def calcularFrecuencias (entrada : List Nat) : Mapa Int :=
  entrada.foldl incrementar []

/-- The expression `arbol.codigosHuffman[c]` read as a value: a missing key is
inserted with the empty string. -/
def indexar (m : Mapa (List Bool)) (c : Nat) : List Bool × Mapa (List Bool) :=
  match buscar m c with
  | some v => (v, m)
  | none => ([], asignar m c [])

/-- The loop "Paso 4" of `comprimirArchivo`: `textoCodificado += arbol.codigosHuffman[c]`. -/
def codificar : List Nat → Mapa (List Bool) → List Bool × Mapa (List Bool)
  | [], m => ([], m)
  | c :: cs, m =>
    let r := indexar m c
    let s := codificar cs r.2
    (r.1 ++ s.1, s.2)

/-- The value of a bit string read as a binary numeral, first bit most
significant (`bitset::to_ulong` / `to_ullong` of a string no longer than the bitset). -/
def bitsANat (bits : List Bool) : Nat :=
  bits.foldl (fun acc b => 2 * acc + (if b then 1 else 0)) 0

/-- The constructor `std::bitset<N>(str)` followed by `to_ullong`: only the
first `N` characters of `str` are used. -/
def bitsetDeCadena (N : Nat) (str : List Bool) : Nat := bitsANat (str.take N)

/-- The eight bytes of a 64-bit unsigned value in memory order (little endian). -/
def bytes64 (n : Nat) : List Nat :=
  [n % 256, n / 256 % 256, n / 256 ^ 2 % 256, n / 256 ^ 3 % 256, n / 256 ^ 4 % 256,
    n / 256 ^ 5 % 256, n / 256 ^ 6 % 256, n / 256 ^ 7 % 256]

/-- One record of the code table as `guardarArchivoBinario` writes it. -/
def escribirEntrada (par : Nat × List Bool) : List Nat :=
  [par.1 % 256, par.2.length % 256] ++ bytes64 (bitsetDeCadena 64 par.2)

/-- The payload loop of `guardarArchivoBinario`: `i` advances by 8. -/
def escribirTexto : Nat → List Bool → List Nat
  | 0, _ => []
  | fuel + 1, texto =>
    if texto.length > 0 then
      bitsetDeCadena 8 (texto.take 8) :: escribirTexto fuel (texto.drop 8)
    else []

/-- The method `CompresorHuffman::guardarArchivoBinario`: the bytes of the output file. -/
def guardarArchivoBinario (codigosHuffman : Mapa (List Bool)) (textoCodificado : List Bool) :
    List Nat :=
  bytes64 (codigosHuffman.length % 2 ^ 64)
    ++ codigosHuffman.flatMap escribirEntrada
    ++ escribirTexto textoCodificado.length textoCodificado

/-- The method `CompresorHuffman::comprimirArchivo` of a fresh compressor, from
the bytes of the input file to the bytes of the output file. -/
def comprimirArchivo (entrada : List Nat) : Except Falla (List Nat) :=
  match construirArbol (calcularFrecuencias entrada) with
  | .error e => .error e
  | .ok raiz =>
    let r := codificar entrada (generarCodigos raiz [] [])
    .ok (guardarArchivoBinario r.2 r.1)

/-! ## `DescompresorHuffman` -/

/-- A 64-bit value from its eight bytes in memory order. -/
def deBytes (bs : List Nat) : Nat := bs.foldr (fun b acc => b + 256 * acc) 0

/-- The string `std::bitset<N>(n).to_string()`: `N` characters, most significant first. -/
def cadenaDeBitset (N n : Nat) : List Bool :=
  (List.range N).map (fun i => decide (n / 2 ^ (N - 1 - i) % 2 = 1))

/-- The table loop of `leerArchivoBinario`: `numCodigos` records of ten bytes. -/
def leerTabla : Nat → List Nat → Mapa (List Bool) →
    Except Falla (Mapa (List Bool) × List Nat)
  | 0, bs, m => .ok (m, bs)
  | n + 1, caracter :: longitudCodigo :: b0 :: b1 :: b2 :: b3 :: b4 :: b5 :: b6 :: b7 :: resto, m =>
    if longitudCodigo > 64 then .error .fueraDeRango
    else
      let bits := cadenaDeBitset 64 (deBytes [b0, b1, b2, b3, b4, b5, b6, b7])
      leerTabla n resto
        (asignar m caracter ((bits.drop (64 - longitudCodigo)).take longitudCodigo))
  | _ + 1, _, _ => .error .indefinido

/-- The method `DescompresorHuffman::leerArchivoBinario` on the bytes of an
existing file: the new state of the object and the returned bit string. -/
def leerArchivoBinario (d : DescompresorHuffman) (archivo : List Nat) :
    Except Falla (DescompresorHuffman × List Bool) :=
  if archivo.length < 8 then .error .indefinido
  else
    match leerTabla (deBytes (archivo.take 8)) (archivo.drop 8) [] with
    | .error e => .error e
    | .ok r =>
      .ok (DescompresorHuffman.mk (ArbolHuffman.mk d.arbol.raiz r.1), r.2.flatMap (cadenaDeBitset 8))

/-- The loop of `descomprimirArchivo`: `actual` is `nodoActual`. -/
def recorrer (raiz : NodoHuffman) : NodoHuffman → List Bool → Except Falla (List Nat)
  | _, [] => .ok []
  | .nulo, _ :: _ => .error .indefinido
  | .nodo _ _ i d, bit :: resto =>
    match (if bit = false then i else d) with
    | .nulo => .error .indefinido
    | .nodo c f i2 d2 =>
      if esHoja (.nodo c f i2 d2) then
        match recorrer raiz raiz resto with
        | .error e => .error e
        | .ok salida => .ok (c :: salida)
      else recorrer raiz (.nodo c f i2 d2) resto

/-- The method `DescompresorHuffman::descomprimirArchivo`: the bytes written to the output file. -/
def descomprimirArchivo (d : DescompresorHuffman) (archivo : List Nat) :
    Except Falla (List Nat) :=
  match leerArchivoBinario d archivo with
  | .error e => .error e
  | .ok r => recorrer r.1.arbol.raiz r.1.arbol.raiz r.2

/-! ## Specification vocabulary -/

/-- The heap property of the queue's vector for `comparar`: no element has a
smaller `frecuencia` than its parent. -/
def EsMonticulo (v : List NodoHuffman) : Prop :=
  ∀ i, 0 < i → i < v.length → frecuenciaDe (elem v ((i - 1) / 2)) ≤ frecuenciaDe (elem v i)

/-- The leaves of a tree from left to right, each as `(caracter, frecuencia)`. -/
def hojas : NodoHuffman → List (Nat × Int)
  | .nulo => []
  | .nodo c f i d => if esHoja (.nodo c f i d) then [(c, f)] else hojas i ++ hojas d

/-- The tree is not null and every node has no child or two children. -/
def esLleno : NodoHuffman → Bool
  | .nulo => false
  | .nodo _ _ i d => (esNulo i && esNulo d) || (esLleno i && esLleno d)

/-- Every node with two children carries the exact sum (in the integers) of
its children's `frecuencia`. -/
def pesosExactos : NodoHuffman → Bool
  | .nulo => true
  | .nodo _ f i d =>
    (esNulo i && esNulo d) ||
      (pesosExactos i && pesosExactos d && decide (f = frecuenciaDe i + frecuenciaDe d))

/-- The counts of the table cannot overflow an `int` when they are added in
any order: their absolute values add up to less than `2^31`. -/
@[reducible] def sinDesborde (frecuencias : Mapa Int) : Prop :=
  (frecuencias.map (fun p => |p.2|)).sum < 2147483648

/-- The paths from a node to the leaves below it, `false` for `izquierda` and
`true` for `derecha`, each appended to `codigoActual`, left to right. -/
def caminos : NodoHuffman → List Bool → List (Nat × List Bool)
  | .nulo, _ => []
  | .nodo c f i d, codigoActual =>
    if esHoja (.nodo c f i d) then [(c, codigoActual)]
    else caminos i (codigoActual ++ [false]) ++ caminos d (codigoActual ++ [true])

/-- The count of a symbol in a frequency table (`0` when absent). -/
def cuentaDe (frecuencias : Mapa Int) (c : Nat) : Int := (buscar frecuencias c).getD 0

/-- Weighted path length: the sum over the leaves below a node at depth `prof`
of `cuenta caracter` times the depth of the leaf. -/
def longitudPonderada (cuenta : Nat → Int) : NodoHuffman → Nat → Int
  | .nulo, _ => 0
  | .nodo c f i d, prof =>
    if esHoja (.nodo c f i d) then cuenta c * prof
    else longitudPonderada cuenta i (prof + 1) + longitudPonderada cuenta d (prof + 1)

/-- The sum of `frecuencia` over the nodes that have children: the weighted
path length of a well-formed tree counted merge by merge. -/
def costoInterno : NodoHuffman → Int
  | .nulo => 0
  | .nodo c f i d =>
    if esHoja (.nodo c f i d) then 0 else f + costoInterno i + costoInterno d

/-- A binary tree in which every inner node has two children and every leaf
carries a weight. -/
inductive ArbolPesos where
  | hoja (w : Int) : ArbolPesos
  | rama (i d : ArbolPesos) : ArbolPesos

/-- The weights at the leaves, left to right. -/
def pesosDe : ArbolPesos → List Int
  | .hoja w => [w]
  | .rama i d => pesosDe i ++ pesosDe d

/-- The weighted path length of a weight tree: each leaf weight is counted
once for every inner node above it. -/
def costoP : ArbolPesos → Int
  | .hoja _ => 0
  | .rama i d => costoP i + costoP d + (pesosDe i).sum + (pesosDe d).sum

/-- The height of a weight tree. -/
def alturaP : ArbolPesos → Nat
  | .hoja _ => 0
  | .rama i d => max (alturaP i) (alturaP d) + 1

/-- The weight tree of a code tree: nodes with a single child are contracted
and every leaf carries the count of its symbol. -/
def contraer (cuenta : Nat → Int) : NodoHuffman → Option ArbolPesos
  | .nulo => none
  | .nodo c _ i d =>
    match contraer cuenta i, contraer cuenta d with
    | none, none => some (.hoja (cuenta c))
    | some a, none => some a
    | none, some b => some b
    | some a, some b => some (.rama a b)

/-- The number `c` bounds from below the weighted path length of every weight
tree whose leaves carry the weights `ws`. -/
def CotaInferior (ws : List Int) (c : Int) : Prop :=
  ∀ T : ArbolPesos, (pesosDe T).Perm ws → c ≤ costoP T

/-- The code table that `comprimirArchivo` holds after "Paso 3" (empty when
`construirArbol` has no defined result). -/
def tablaDeCodigos (entrada : List Nat) : Mapa (List Bool) :=
  match construirArbol (calcularFrecuencias entrada) with
  | .ok raiz => generarCodigos raiz [] []
  | .error _ => []

/-- The code table that `construirArbol` followed by `generarCodigos(raiz, "")`
produces from a frequency table (empty when `construirArbol` has no defined result). -/
def codigosDeTabla (frecuencias : Mapa Int) : Mapa (List Bool) :=
  match construirArbol frecuencias with
  | .ok raiz => generarCodigos raiz [] []
  | .error _ => []

/-- The Fibonacci numbers `a, b, a + b, ...`, `n` of them. -/
def fibonacci : Nat → Int → Int → List Int
  | 0, _, _ => []
  | n + 1, a, b => a :: fibonacci n b (a + b)

/-- A frequency table of 80 symbols whose counts fit an `int` with room to
spare (their sum is 1836311902): 36 symbols with count 0, then 44 symbols
with the counts 1, 1, 2, 3, 5, 8, ... -/
def tablaProfunda : Mapa Int :=
  (List.range 80).zip (List.replicate 36 0 ++ fibonacci 44 1 1)

/-- The bit sequence `textoCodificado` that "Paso 4" of `comprimirArchivo` builds. -/
def textoCodificadoDe (entrada : List Nat) : List Bool :=
  (codificar entrada (tablaDeCodigos entrada)).1

/-- A `DescompresorHuffman` before its first call; no constructor initialises
`arbol.raiz`, the model takes the null pointer for it. -/
def descompresorNuevo : DescompresorHuffman :=
  DescompresorHuffman.mk (ArbolHuffman.mk .nulo [])

/-- Every subtree of a tree (every node reachable from it), the tree first. -/
def subarboles : NodoHuffman → List NodoHuffman
  | .nulo => []
  | .nodo c f i d => .nodo c f i d :: (subarboles i ++ subarboles d)

/-- The sum of the `frecuencia` of the leaves below a node. -/
def sumaHojas (t : NodoHuffman) : Int := ((hojas t).map Prod.snd).sum

/-- The function `main`: the exit code, from `argv` (program name first, so
`argc` is its length) and the files by name (`none`: a file that cannot be
opened).  A compressor that cannot open its input reads no byte; a
decompressor that cannot open its input gets the empty bit string from
`leerArchivoBinario`. -/
def main (argv : List String) (archivos : String → Option (List Nat)) : Except Falla Nat :=
  if argv.length < 5 then .ok 1
  else
    let modo := argv.getD 1 ""
    let archivoEntrada := argv.getD 2 ""
    if modo = "-c" then
      match comprimirArchivo ((archivos archivoEntrada).getD []) with
      | .error e => .error e
      | .ok _ => .ok 0
    else if modo = "-d" then
      match archivos archivoEntrada with
      | none => .ok 0
      | some bytes =>
        match descomprimirArchivo descompresorNuevo bytes with
        | .error e => .error e
        | .ok _ => .ok 0
    else .ok 0

/-- The field `nodo->caracter` (read only through non-null pointers). -/
def caracterDe : NodoHuffman → Nat
  | .nulo => 0
  | .nodo c _ _ _ => c


/-! ## The vector of the priority queue: elementary facts -/


theorem elem_set (v : List NodoHuffman) (i j : Nat) (x : NodoHuffman) :
    elem (v.set i x) j = if i = j ∧ j < v.length then x else elem v j := by
  unfold elem
  simp only [List.getD_eq_getElem?_getD, List.getElem?_set]
  by_cases h : i = j
  · subst h
    by_cases h2 : i < v.length
    · simp [h2]
    · simp [h2, List.getElem?_eq_none (Nat.le_of_not_lt h2)]
  · simp [h]

theorem elem_append_left (u w : List NodoHuffman) (i : Nat) (h : i < u.length) :
    elem (u ++ w) i = elem u i := by
  unfold elem
  exact List.getD_append u w _ i h

theorem elem_mem (v : List NodoHuffman) (i : Nat) (h : i < v.length) : elem v i ∈ v := by
  unfold elem
  rw [List.getD_eq_getElem?_getD, List.getElem?_eq_getElem h]
  exact List.getElem_mem h

theorem exists_elem_of_mem (v : List NodoHuffman) (x : NodoHuffman) (h : x ∈ v) :
    ∃ i, i < v.length ∧ elem v i = x := by
  obtain ⟨i, hi, rfl⟩ := List.getElem_of_mem h
  refine ⟨i, hi, ?_⟩
  unfold elem
  rw [List.getD_eq_getElem?_getD, List.getElem?_eq_getElem hi]
  rfl

theorem set_perm_cons_eraseIdx (v : List NodoHuffman) (y : NodoHuffman) :
    ∀ h, h < v.length → (v.set h y).Perm (y :: v.eraseIdx h) := by
  induction v with
  | nil => intro h hh; simp at hh
  | cons a t ih =>
    intro h hh
    cases h with
    | zero => simp
    | succ k =>
      simp only [List.set_cons_succ, List.eraseIdx_cons_succ]
      have hk : k < t.length := by simpa using hh
      exact ((ih k hk).cons a).trans (List.Perm.swap y a _)

theorem set_elem_self (v : List NodoHuffman) : ∀ h, v.set h (elem v h) = v := by
  induction v with
  | nil => intro h; simp
  | cons a t ih =>
    intro h
    cases h with
    | zero => simp [elem]
    | succ k =>
      have := ih k
      simp only [elem, List.getD_cons_succ, List.set_cons_succ] at this ⊢
      rw [this]

/-- Writing `v[p]` into the hole `h` and the pending value into `p` permutes
the vector in which the pending value sits in the hole. -/
theorem set_set_perm (v : List NodoHuffman) (x : NodoHuffman) :
    ∀ p h, p ≠ h → p < v.length → h < v.length →
      ((v.set h (elem v p)).set p x).Perm (v.set h x) := by
  induction v with
  | nil => intro p h _ hp; simp at hp
  | cons a t ih =>
    intro p h hne hp hh
    cases p with
    | zero =>
      cases h with
      | zero => exact absurd rfl hne
      | succ k =>
        have hk : k < t.length := by simpa using hh
        simp only [elem, List.getD_cons_zero, List.set_cons_succ, List.set_cons_zero]
        exact (((set_perm_cons_eraseIdx t a k hk).cons x).trans (List.Perm.swap a x _)).trans
          ((set_perm_cons_eraseIdx t x k hk).cons a).symm
    | succ q =>
      have hq : q < t.length := by simpa using hp
      cases h with
      | zero =>
        simp only [elem, List.getD_cons_succ, List.set_cons_succ, List.set_cons_zero]
        have h1 := set_perm_cons_eraseIdx t x q hq
        have h2 := set_perm_cons_eraseIdx t (elem t q) q hq
        rw [set_elem_self] at h2
        exact ((h1.cons _).trans (List.Perm.swap x _ _)).trans (h2.cons x).symm
      | succ k =>
        have hk : k < t.length := by simpa using hh
        have := ih q k (by omega) hq hk
        simp only [elem, List.getD_cons_succ, List.set_cons_succ] at this ⊢
        exact this.cons a

/-! ### `__push_heap` -/

theorem push_heap_aux_length (fuel : Nat) : ∀ (v : List NodoHuffman) (h top : Nat) (x : NodoHuffman),
    (push_heap_aux fuel v h top x).length = v.length := by
  induction fuel with
  | zero => intro v h top x; simp [push_heap_aux]
  | succ n ih =>
    intro v h top x
    simp only [push_heap_aux]
    split
    · rw [ih]; simp
    · simp

theorem push_heap_aux_perm (fuel : Nat) : ∀ (v : List NodoHuffman) (h top : Nat) (x : NodoHuffman),
    h < v.length → (push_heap_aux fuel v h top x).Perm (v.set h x) := by
  induction fuel with
  | zero => intro v h top x _; simp [push_heap_aux]
  | succ n ih =>
    intro v h top x hh
    simp only [push_heap_aux]
    split
    · rename_i hc
      have hp : (h - 1) / 2 < v.length := by omega
      have hne : (h - 1) / 2 ≠ h := by omega
      refine (ih _ _ top x (by simpa using hp)).trans ?_
      exact set_set_perm v x _ _ hne hp hh
    · exact List.Perm.refl _

theorem push_heap_aux_append (fuel : Nat) :
    ∀ (u w : List NodoHuffman) (h top : Nat) (x : NodoHuffman), h < u.length →
      push_heap_aux fuel (u ++ w) h top x = push_heap_aux fuel u h top x ++ w := by
  induction fuel with
  | zero => intro u w h top x hh; simp [push_heap_aux, List.set_append_left _ _ hh]
  | succ n ih =>
    intro u w h top x hh
    have hp : (h - 1) / 2 < u.length := by omega
    simp only [push_heap_aux, elem_append_left u w _ hp, List.set_append_left _ _ hh]
    split
    · rw [ih _ _ _ _ _ (by simpa using hp)]
    · rfl

theorem frec_elem_set (v : List NodoHuffman) (h j : Nat) (x : NodoHuffman) (hh : h < v.length) :
    frecuenciaDe (elem (v.set h x) j)
      = if j = h then frecuenciaDe x else frecuenciaDe (elem v j) := by
  rw [elem_set]
  by_cases c : j = h
  · subst c; simp [hh]
  · have : ¬ (h = j ∧ j < v.length) := fun hc => c hc.1.symm
    simp [c, this]

theorem push_heap_aux_heap (fuel : Nat) : ∀ (v : List NodoHuffman) (h : Nat) (x : NodoHuffman),
    h < v.length → h ≤ fuel →
    (∀ i, 0 < i → i < v.length → i ≠ h →
       frecuenciaDe (elem (v.set h x) ((i - 1) / 2)) ≤ frecuenciaDe (elem (v.set h x) i)) →
    (∀ i, 0 < i → i < v.length → (i - 1) / 2 = h → 0 < h →
       frecuenciaDe (elem (v.set h x) ((h - 1) / 2)) ≤ frecuenciaDe (elem (v.set h x) i)) →
    EsMonticulo (push_heap_aux fuel v h 0 x) := by
  induction fuel with
  | zero =>
    intro v h x hh hf hI _
    have h0 : h = 0 := by omega
    subst h0
    intro i hi0 hil
    simp only [push_heap_aux] at hil ⊢
    exact hI i hi0 (by simpa using hil) (by omega)
  | succ n ih =>
    intro v h x hh hf hI hI2
    simp only [push_heap_aux]
    split
    · rename_i hc
      obtain ⟨hpos, hcmp⟩ := hc
      have hcmp' : frecuenciaDe x < frecuenciaDe (elem v ((h - 1) / 2)) := by
        simpa [comparar] using hcmp
      have hp : (h - 1) / 2 < v.length := by omega
      have hp1 : (h - 1) / 2 < (v.set h (elem v ((h - 1) / 2))).length := by simpa using hp
      have hh1 : h < (v.set h (elem v ((h - 1) / 2))).length := by simpa using hh
      have hne : (h - 1) / 2 ≠ h := by omega
      simp only [frec_elem_set v h _ x hh] at hI hI2
      apply ih _ _ _ hp1 (by omega)
      · intro i hi0 hil hip
        have hil' : i < v.length := by simpa using hil
        simp only [frec_elem_set _ _ _ x hp1, frec_elem_set v h _ _ hh]
        by_cases c1 : i = h
        · subst c1
          simp [hne.symm]
          exact le_of_lt hcmp'
        · have h1 := hI i hi0 hil' c1
          simp only [if_neg c1, if_neg hip] at h1 ⊢
          by_cases c2 : (i - 1) / 2 = (h - 1) / 2
          · rw [c2] at h1
            simp only [if_neg hne] at h1
            simp only [c2, if_true]
            linarith
          · simp only [if_neg c2]
            by_cases c3 : (i - 1) / 2 = h
            · have h2 := hI2 i hi0 hil' c3 hpos
              simp only [if_neg c1, if_neg hne] at h2
              simp only [if_pos c3]
              exact h2
            · simp only [if_neg c3] at h1 ⊢
              exact h1
      · intro i hi0 hil hip hp0
        have hil' : i < v.length := by simpa using hil
        simp only [frec_elem_set _ _ _ x hp1, frec_elem_set v h _ _ hh]
        have hpp : ((h - 1) / 2 - 1) / 2 ≠ (h - 1) / 2 := by omega
        have hpp2 : ((h - 1) / 2 - 1) / 2 ≠ h := by omega
        have hip' : i ≠ (h - 1) / 2 := by omega
        have h3 := hI ((h - 1) / 2) hp0 hp hne
        simp only [if_neg hpp2, if_neg hne] at h3
        simp only [if_neg hpp, if_neg hpp2, if_neg hip']
        by_cases c1 : i = h
        · simp only [if_pos c1]
          exact h3
        · have h1 := hI i hi0 hil' c1
          simp only [if_neg c1, hip, if_neg hne] at h1
          simp only [if_neg c1]
          linarith
    · rename_i hc
      intro i hi0 hil
      have hil' : i < v.length := by simpa using hil
      by_cases c1 : i = h
      · subst c1
        have hne : (i - 1) / 2 ≠ i := by omega
        rw [frec_elem_set v i _ x hh, frec_elem_set v i _ x hh]
        simp only [if_neg hne, if_true]
        have : ¬ (comparar (elem v ((i - 1) / 2)) x = true) := fun hcc => hc ⟨hi0, hcc⟩
        simp only [comparar, decide_eq_true_eq, not_lt] at this
        simpa using this
      · exact hI i hi0 hil' c1

theorem esMonticulo_top_le (v : List NodoHuffman) (hv : EsMonticulo v) :
    ∀ i, i < v.length → frecuenciaDe (elem v 0) ≤ frecuenciaDe (elem v i) := by
  intro i
  induction i using Nat.strong_induction_on with
  | _ i ih =>
    intro hi
    by_cases h0 : i = 0
    · subst h0; exact le_refl _
    · have h1 := hv i (by omega) hi
      have h2 := ih ((i - 1) / 2) (by omega) (by omega)
      linarith

theorem esMonticulo_dropLast (v : List NodoHuffman) (hv : EsMonticulo v) :
    EsMonticulo v.dropLast := by
  intro i hi0 hil
  have hl : i < v.length - 1 := by simpa using hil
  have e : ∀ j, j < v.length - 1 → elem v.dropLast j = elem v j := by
    intro j hj
    rcases List.eq_nil_or_concat v with h | ⟨L, b, h⟩
    · subst h; simp at hj
    · subst h
      simp only [List.concat_eq_append, List.length_append, List.length_singleton,
        Nat.add_sub_cancel] at hj
      rw [List.concat_eq_append, List.dropLast_concat, elem_append_left _ _ _ hj]
  rw [e i hl, e _ (by omega)]
  exact hv i hi0 (by omega)

theorem colaPush_perm (c : List NodoHuffman) (x : NodoHuffman) :
    (colaPush c x).Perm (x :: c) := by
  unfold colaPush push_heap_hueco
  refine (push_heap_aux_perm _ _ _ _ _ (by simp)).trans ?_
  have : (c ++ [x]).set c.length x = c ++ [x] := by
    rw [List.set_append]; simp
  rw [this]
  exact List.perm_append_singleton x c

theorem colaPush_heap (c : List NodoHuffman) (x : NodoHuffman) (hc : EsMonticulo c) :
    EsMonticulo (colaPush c x) := by
  unfold colaPush push_heap_hueco
  have hset : (c ++ [x]).set c.length x = c ++ [x] := by
    rw [List.set_append]; simp
  apply push_heap_aux_heap _ _ _ _ (by simp) (le_refl _)
  · intro i hi0 hil hne
    rw [hset]
    have hil' : i < c.length := by
      simp only [List.length_append, List.length_singleton] at hil; omega
    rw [elem_append_left _ _ _ hil', elem_append_left _ _ _ (by omega)]
    exact hc i hi0 hil'
  · intro i hi0 hil hpar _
    simp only [List.length_append, List.length_singleton] at hil
    omega

/-! ### `__adjust_heap` -/

theorem adjust_heap_bajar_bounds (fuel : Nat) : ∀ (v : List NodoHuffman) (h len : Nat),
    h < len → len ≤ v.length →
    (adjust_heap_bajar fuel v h len).2 < len ∧
    (adjust_heap_bajar fuel v h len).1.length = v.length ∧
    (len ≤ fuel + h → (len - 1) / 2 ≤ (adjust_heap_bajar fuel v h len).2) ∧
    ∀ x, (((adjust_heap_bajar fuel v h len).1).set (adjust_heap_bajar fuel v h len).2 x).Perm
      (v.set h x) := by
  induction fuel with
  | zero =>
    intro v h len hh hl
    simp only [adjust_heap_bajar]
    exact ⟨hh, by simp, fun hf => by omega, fun x => List.Perm.refl _⟩
  | succ n ih =>
    intro v h len hh hl
    simp only [adjust_heap_bajar]
    split
    · rename_i hlt
      split
      · have hsc : 2 * (h + 1) - 1 < len := by omega
        obtain ⟨a1, a2, a3, a4⟩ := ih (v.set h (elem v (2 * (h + 1) - 1))) (2 * (h + 1) - 1) len
          hsc (by simpa using hl)
        refine ⟨a1, by simpa using a2, fun hf => a3 (by omega), fun x => (a4 x).trans ?_⟩
        exact set_set_perm v x _ _ (by omega) (by omega) (by omega)
      · have hsc : 2 * (h + 1) < len := by omega
        obtain ⟨a1, a2, a3, a4⟩ := ih (v.set h (elem v (2 * (h + 1)))) (2 * (h + 1)) len
          hsc (by simpa using hl)
        refine ⟨a1, by simpa using a2, fun hf => a3 (by omega), fun x => (a4 x).trans ?_⟩
        exact set_set_perm v x _ _ (by omega) (by omega) (by omega)
    · exact ⟨hh, rfl, fun _ => by omega, fun x => List.Perm.refl _⟩

theorem adjust_heap_bajar_append (fuel : Nat) : ∀ (u w : List NodoHuffman) (h len : Nat),
    h < len → len ≤ u.length →
    adjust_heap_bajar fuel (u ++ w) h len
      = ((adjust_heap_bajar fuel u h len).1 ++ w, (adjust_heap_bajar fuel u h len).2) := by
  induction fuel with
  | zero => intro u w h len _ _; simp [adjust_heap_bajar]
  | succ n ih =>
    intro u w h len hh hl
    simp only [adjust_heap_bajar]
    split
    · rename_i hlt
      have e1 : elem (u ++ w) (2 * (h + 1)) = elem u (2 * (h + 1)) :=
        elem_append_left _ _ _ (by omega)
      have e2 : elem (u ++ w) (2 * (h + 1) - 1) = elem u (2 * (h + 1) - 1) :=
        elem_append_left _ _ _ (by omega)
      simp only [e1, e2]
      split
      · rw [List.set_append_left _ _ (by omega), ih _ _ _ _ (by omega) (by simpa using hl), e2]
      · rw [List.set_append_left _ _ (by omega), ih _ _ _ _ (by omega) (by simpa using hl), e1]
    · rfl

/-- One descent step keeps the heap property: the hole receives its lighter child. -/
theorem esMonticulo_set_hijo (v : List NodoHuffman) (h sc : Nat) (hv : EsMonticulo v)
    (hh : h < v.length) (hsc : sc < v.length) (hpar : (sc - 1) / 2 = h) (hpos : 0 < sc)
    (hmin : ∀ i, 0 < i → i < v.length → (i - 1) / 2 = h →
      frecuenciaDe (elem v sc) ≤ frecuenciaDe (elem v i)) :
    EsMonticulo (v.set h (elem v sc)) := by
  intro i hi0 hil
  have hil' : i < v.length := by simpa using hil
  rw [frec_elem_set v h _ _ hh, frec_elem_set v h _ _ hh]
  by_cases c1 : i = h
  · subst c1
    have hne : (i - 1) / 2 ≠ i := by omega
    simp only [if_neg hne, if_true]
    have h1 := hv i hi0 hil'
    have h2 := hv sc hpos hsc
    rw [hpar] at h2
    linarith
  · simp only [if_neg c1]
    by_cases c2 : (i - 1) / 2 = h
    · simp only [if_pos c2]
      exact hmin i hi0 hil' c2
    · simp only [if_neg c2]
      exact hv i hi0 hil'

theorem adjust_heap_bajar_heap (fuel : Nat) : ∀ (v : List NodoHuffman) (h : Nat),
    h < v.length → EsMonticulo v →
    EsMonticulo (adjust_heap_bajar fuel v h v.length).1 := by
  induction fuel with
  | zero => intro v h _ hv; simpa [adjust_heap_bajar] using hv
  | succ n ih =>
    intro v h hh hv
    simp only [adjust_heap_bajar]
    split
    · rename_i hlt
      split
      · rename_i hc
        have hc' : frecuenciaDe (elem v (2 * (h + 1) - 1)) < frecuenciaDe (elem v (2 * (h + 1))) := by
          simpa [comparar] using hc
        have key := esMonticulo_set_hijo v h (2 * (h + 1) - 1) hv hh (by omega) (by omega)
          (by omega) (by
            intro i hi0 hil hp
            have : i = 2 * (h + 1) - 1 ∨ i = 2 * (h + 1) := by omega
            rcases this with e | e
            · rw [e]
            · rw [e]; exact le_of_lt hc')
        have := ih (v.set h (elem v (2 * (h + 1) - 1))) (2 * (h + 1) - 1)
          (by simp; omega) key
        simpa using this
      · rename_i hc
        have hc' : frecuenciaDe (elem v (2 * (h + 1))) ≤ frecuenciaDe (elem v (2 * (h + 1) - 1)) := by
          simpa [comparar] using hc
        have key := esMonticulo_set_hijo v h (2 * (h + 1)) hv hh (by omega) (by omega)
          (by omega) (by
            intro i hi0 hil hp
            have : i = 2 * (h + 1) - 1 ∨ i = 2 * (h + 1) := by omega
            rcases this with e | e
            · rw [e]; exact hc'
            · rw [e])
        have := ih (v.set h (elem v (2 * (h + 1)))) (2 * (h + 1))
          (by simp; omega) key
        simpa using this
    · exact hv

theorem adjust_heap_perm (u : List NodoHuffman) (x : NodoHuffman) (hl : 1 ≤ u.length) :
    (adjust_heap u 0 u.length x).Perm (u.set 0 x) := by
  obtain ⟨b1, b2, b3, b4⟩ := adjust_heap_bajar_bounds u.length u 0 u.length (by omega) (le_refl _)
  unfold adjust_heap push_heap_hueco
  simp only
  split
  · rename_i hc
    refine (push_heap_aux_perm _ _ _ _ _ (by simp; omega)).trans ?_
    refine (set_set_perm _ x _ _ (by omega) (by omega) (by omega)).trans (b4 x)
  · exact (push_heap_aux_perm _ _ _ _ _ (by omega)).trans (b4 x)

theorem adjust_heap_heap (u : List NodoHuffman) (x : NodoHuffman) (hl : 1 ≤ u.length)
    (hu : EsMonticulo u) : EsMonticulo (adjust_heap u 0 u.length x) := by
  obtain ⟨b1, b2, b3, b4⟩ := adjust_heap_bajar_bounds u.length u 0 u.length (by omega) (le_refl _)
  have b3' := b3 (by omega)
  have hr := adjust_heap_bajar_heap u.length u 0 (by omega) hu
  unfold adjust_heap push_heap_hueco
  simp only
  split
  · rename_i hc
    have key := esMonticulo_set_hijo (adjust_heap_bajar u.length u 0 u.length).1
      (adjust_heap_bajar u.length u 0 u.length).2
      (2 * ((adjust_heap_bajar u.length u 0 u.length).2 + 1) - 1) hr (by omega) (by omega)
      (by omega) (by omega) (by
        intro i hi0 hil hp
        have : i = 2 * ((adjust_heap_bajar u.length u 0 u.length).2 + 1) - 1 := by omega
        rw [this])
    apply push_heap_aux_heap _ _ _ _ (by simp; omega) (le_refl _)
    · intro i hi0 hil hne
      have hil' : i < u.length := by simpa [b2] using hil
      rw [frec_elem_set _ _ _ x (by simp; omega), frec_elem_set _ _ _ x (by simp; omega)]
      have c1 : (i - 1) / 2 ≠ 2 * ((adjust_heap_bajar u.length u 0 u.length).2 + 1) - 1 := by omega
      simp only [if_neg hne, if_neg c1]
      exact key i hi0 hil
    · intro i hi0 hil hpar _
      have hil' : i < u.length := by simpa [b2] using hil
      omega
  · rename_i hc
    apply push_heap_aux_heap _ _ _ _ (by omega) (le_refl _)
    · intro i hi0 hil hne
      have hil' : i < u.length := by simpa [b2] using hil
      rw [frec_elem_set _ _ _ x (by omega), frec_elem_set _ _ _ x (by omega)]
      have c1 : (i - 1) / 2 ≠ (adjust_heap_bajar u.length u 0 u.length).2 := by omega
      simp only [if_neg hne, if_neg c1]
      exact hr i hi0 hil
    · intro i hi0 hil hpar _
      have hil' : i < u.length := by simpa [b2] using hil
      omega

theorem adjust_heap_append (u w : List NodoHuffman) (x : NodoHuffman) (hl : 1 ≤ u.length) :
    adjust_heap (u ++ w) 0 u.length x = adjust_heap u 0 u.length x ++ w := by
  obtain ⟨b1, b2, b3, b4⟩ := adjust_heap_bajar_bounds u.length u 0 u.length (by omega) (le_refl _)
  unfold adjust_heap push_heap_hueco
  simp only [adjust_heap_bajar_append u.length u w 0 u.length (by omega) (le_refl _)]
  split
  · rename_i hc
    simp only
    rw [elem_append_left _ _ _ (by omega), List.set_append_left _ _ (by omega),
      push_heap_aux_append _ _ _ _ _ _ (by simp; omega)]
  · exact push_heap_aux_append _ _ _ _ _ _ (by omega)

/-! ### `priority_queue::pop` and `top` -/

theorem colaPop_concat (u : List NodoHuffman) (z : NodoHuffman) (hl : 1 ≤ u.length) :
    colaPop (u ++ [z]) = adjust_heap u 0 u.length z := by
  unfold colaPop
  have h1 : (u ++ [z]).length - 1 = u.length := by simp
  have h2 : (u ++ [z]).length > 1 := by simp; omega
  rw [if_pos h2, h1]
  have e0 : elem (u ++ [z]) 0 = elem u 0 := elem_append_left _ _ _ (by omega)
  have ez : elem (u ++ [z]) u.length = z := by
    unfold elem
    rw [List.getD_eq_getElem?_getD, List.getElem?_append_right (le_refl _)]
    simp
  have es : (u ++ [z]).set u.length (elem u 0) = u ++ [elem u 0] := by
    rw [List.set_append]; simp
  rw [e0, ez, es, adjust_heap_append u _ z hl, List.dropLast_concat]

theorem colaPop_perm (c : List NodoHuffman) (hc : c ≠ []) :
    (colaTop c :: colaPop c).Perm c := by
  rcases List.eq_nil_or_concat c with h | ⟨u, z, h⟩
  · exact absurd h hc
  · subst h
    rw [List.concat_eq_append]
    cases u with
    | nil => simp [colaTop, colaPop, elem]
    | cons a t =>
      rw [colaPop_concat _ _ (by simp)]
      have hp := adjust_heap_perm (a :: t) z (by simp)
      have ht : colaTop (a :: t ++ [z]) = a := by simp [colaTop, elem]
      rw [ht]
      simp only [List.set_cons_zero] at hp
      refine (hp.cons a).trans ?_
      exact ((List.perm_append_singleton z t).symm.cons a)

theorem colaPop_heap (c : List NodoHuffman) (hc : EsMonticulo c) : EsMonticulo (colaPop c) := by
  rcases List.eq_nil_or_concat c with h | ⟨u, z, h⟩
  · subst h; intro i _ hi; simp [colaPop] at hi
  · subst h
    rw [List.concat_eq_append] at hc ⊢
    have hu : EsMonticulo u := by
      have := esMonticulo_dropLast _ hc
      rwa [List.dropLast_concat] at this
    cases u with
    | nil => intro i _ hi; simp [colaPop] at hi
    | cons a t =>
      rw [colaPop_concat _ _ (by simp)]
      exact adjust_heap_heap _ z (by simp) hu

theorem colaTop_le (c : List NodoHuffman) (hc : EsMonticulo c) :
    ∀ x ∈ c, frecuenciaDe (colaTop c) ≤ frecuenciaDe x := by
  intro x hx
  obtain ⟨i, hi, rfl⟩ := exists_elem_of_mem c x hx
  exact esMonticulo_top_le c hc i hi

theorem esMonticulo_nil : EsMonticulo [] := by
  intro i _ hi; simp at hi

theorem colaTop_mem (c : List NodoHuffman) (hc : c ≠ []) : colaTop c ∈ c := by
  cases c with
  | nil => exact absurd rfl hc
  | cons a t => simp [colaTop, elem]

theorem colaPop_length (c : List NodoHuffman) : (colaPop c).length = c.length - 1 := by
  by_cases hc : c = []
  · subst hc; simp [colaPop]
  · have := (colaPop_perm c hc).length_eq
    simp only [List.length_cons] at this
    omega

theorem colaPush_length (c : List NodoHuffman) (x : NodoHuffman) :
    (colaPush c x).length = c.length + 1 := by
  simpa using (colaPush_perm c x).length_eq

/-! ## `construirArbol`: structure of the result -/

theorem esNulo_iff (t : NodoHuffman) : esNulo t = true ↔ t = .nulo := by
  cases t <;> simp [esNulo]

theorem esLleno_ne_nulo (t : NodoHuffman) (h : esLleno t = true) : t ≠ .nulo := by
  intro e; subst e; simp [esLleno] at h

theorem esLleno_nuevoNodo (c : Nat) (f : Int) : esLleno (nuevoNodo c f) = true := by
  simp [nuevoNodo, esLleno, esNulo]

theorem hojas_nuevoNodo (c : Nat) (f : Int) : hojas (nuevoNodo c f) = [(c, f)] := by
  simp [nuevoNodo, hojas, esHoja, esNulo]

theorem esHoja_of_esLleno (c : Nat) (f : Int) (i d : NodoHuffman)
    (hi : esLleno i = true) : esHoja (.nodo c f i d) = false := by
  cases i with
  | nulo => simp [esLleno] at hi
  | nodo _ _ _ _ => simp [esHoja, esNulo]

theorem combinarPaso_perm (cola : List NodoHuffman) (hl : 1 < cola.length) :
    ∃ resto, cola.Perm (colaTop cola :: colaTop (colaPop cola) :: resto) ∧
      (combinarPaso cola).Perm
        (.nodo 0 (sumaInt (frecuenciaDe (colaTop cola)) (frecuenciaDe (colaTop (colaPop cola))))
          (colaTop cola) (colaTop (colaPop cola)) :: resto) := by
  have h1 : cola ≠ [] := by intro e; subst e; simp at hl
  have h2 : colaPop cola ≠ [] := by
    intro e
    have := colaPop_length cola
    rw [e] at this; simp at this; omega
  refine ⟨colaPop (colaPop cola), ?_, ?_⟩
  · exact (colaPop_perm cola h1).symm.trans ((colaPop_perm _ h2).symm.cons _)
  · exact colaPush_perm _ _

theorem combinarPaso_length (cola : List NodoHuffman) (hl : 1 < cola.length) :
    (combinarPaso cola).length + 1 = cola.length := by
  obtain ⟨resto, h1, h2⟩ := combinarPaso_perm cola hl
  have a := h1.length_eq
  have b := h2.length_eq
  simp only [List.length_cons] at a b
  omega

theorem combinarPaso_heap (cola : List NodoHuffman) (hc : EsMonticulo cola) :
    EsMonticulo (combinarPaso cola) :=
  colaPush_heap _ _ (colaPop_heap _ (colaPop_heap _ hc))

/-- An invariant of the loop body that holds of the initial queue holds of the
one-element queue the loop ends with. -/
theorem combinar_invariante (P : List NodoHuffman → Prop)
    (hpaso : ∀ cola, 1 < cola.length → P cola → P (combinarPaso cola)) :
    ∀ (fuel : Nat) (cola : List NodoHuffman), cola.length ≤ fuel + 1 → 1 ≤ cola.length →
      P cola → ∃ r, combinar fuel cola = [r] ∧ P [r] := by
  intro fuel
  induction fuel with
  | zero =>
    intro cola h1 h2 hP
    have h3 : cola.length = 1 := by omega
    obtain ⟨r, rfl⟩ := List.length_eq_one.mp h3
    exact ⟨r, rfl, hP⟩
  | succ n ih =>
    intro cola h1 h2 hP
    simp only [combinar]
    split
    · rename_i hl
      have hlen := combinarPaso_length cola hl
      exact ih _ (by omega) (by omega) (hpaso cola hl hP)
    · rename_i hl
      have h3 : cola.length = 1 := by omega
      obtain ⟨r, rfl⟩ := List.length_eq_one.mp h3
      exact ⟨r, rfl, hP⟩

theorem encolarHojas_aux (frecuencias : Mapa Int) : ∀ (cola : List NodoHuffman),
    (frecuencias.foldl (fun cola par => colaPush cola (nuevoNodo par.1 par.2)) cola).Perm
      (cola ++ frecuencias.map (fun par => nuevoNodo par.1 par.2)) ∧
    (EsMonticulo cola →
      EsMonticulo (frecuencias.foldl (fun cola par => colaPush cola (nuevoNodo par.1 par.2)) cola)) := by
  induction frecuencias with
  | nil => intro cola; simp
  | cons p ps ih =>
    intro cola
    simp only [List.foldl_cons, List.map_cons]
    obtain ⟨a, b⟩ := ih (colaPush cola (nuevoNodo p.1 p.2))
    refine ⟨a.trans ?_, fun hc => b (colaPush_heap _ _ hc)⟩
    have := colaPush_perm cola (nuevoNodo p.1 p.2)
    refine (List.Perm.append_right _ this).trans ?_
    simp only [List.cons_append]
    exact List.perm_middle.symm

theorem encolarHojas_perm (frecuencias : Mapa Int) :
    (encolarHojas frecuencias).Perm (frecuencias.map (fun par => nuevoNodo par.1 par.2)) := by
  simpa [encolarHojas] using (encolarHojas_aux frecuencias []).1

theorem encolarHojas_heap (frecuencias : Mapa Int) : EsMonticulo (encolarHojas frecuencias) :=
  (encolarHojas_aux frecuencias []).2 esMonticulo_nil

theorem encolarHojas_length (frecuencias : Mapa Int) :
    (encolarHojas frecuencias).length = frecuencias.length := by
  simpa using (encolarHojas_perm frecuencias).length_eq

/-- The shape of every run of `construirArbol` on a non-empty table: the loop
ends with one node, and every invariant of the loop body that holds of the
initial queue holds of that node. -/
theorem construirArbol_invariante (frecuencias : Mapa Int) (hne : frecuencias ≠ [])
    (P : List NodoHuffman → Prop)
    (hpaso : ∀ cola, 1 < cola.length → P cola → P (combinarPaso cola))
    (h0 : P (encolarHojas frecuencias)) :
    ∃ r, construirArbol frecuencias = .ok r ∧ P [r] := by
  have hl : 1 ≤ (encolarHojas frecuencias).length := by
    rw [encolarHojas_length]
    cases frecuencias with
    | nil => exact absurd rfl hne
    | cons _ _ => simp
  obtain ⟨r, hr, hP⟩ := combinar_invariante P hpaso (encolarHojas frecuencias).length
    (encolarHojas frecuencias) (by omega) hl h0
  refine ⟨r, ?_, hP⟩
  simp only [construirArbol, hr]

theorem hojas_nodo_of_esLleno (c : Nat) (f : Int) (i d : NodoHuffman)
    (hi : esLleno i = true) : hojas (.nodo c f i d) = hojas i ++ hojas d := by
  simp [hojas, esHoja_of_esLleno c f i d hi]

theorem esLleno_union (f : Int) (i d : NodoHuffman) (hi : esLleno i = true)
    (hd : esLleno d = true) : esLleno (.nodo 0 f i d) = true := by
  simp [esLleno, hi, hd]

/-- The structural invariant of the loop of `construirArbol`. -/
theorem combinarPaso_estructura (frecuencias : Mapa Int) (cola : List NodoHuffman)
    (hl : 1 < cola.length)
    (h : (∀ t ∈ cola, esLleno t = true) ∧ (cola.flatMap hojas).Perm frecuencias) :
    (∀ t ∈ combinarPaso cola, esLleno t = true) ∧
      ((combinarPaso cola).flatMap hojas).Perm frecuencias := by
  obtain ⟨hb, hp⟩ := h
  obtain ⟨resto, h1, h2⟩ := combinarPaso_perm cola hl
  have b1 : esLleno (colaTop cola) = true := hb _ (h1.symm.subset (by simp))
  have b2 : esLleno (colaTop (colaPop cola)) = true := hb _ (h1.symm.subset (by simp))
  constructor
  · intro t ht
    have := h2.subset ht
    simp only [List.mem_cons] at this
    rcases this with e | e
    · rw [e]; exact esLleno_union _ _ _ b1 b2
    · exact hb t (h1.symm.subset (by simp [e]))
  · refine (List.Perm.flatMap_right hojas h2).trans ?_
    refine List.Perm.trans ?_ ((List.Perm.flatMap_right hojas h1).symm.trans hp)
    simp only [List.flatMap_cons, hojas_nodo_of_esLleno _ _ _ _ b1, List.append_assoc]
    exact List.Perm.refl _

theorem encolarHojas_estructura (frecuencias : Mapa Int) :
    (∀ t ∈ encolarHojas frecuencias, esLleno t = true) ∧
      ((encolarHojas frecuencias).flatMap hojas).Perm frecuencias := by
  have hp := encolarHojas_perm frecuencias
  constructor
  · intro t ht
    have := hp.subset ht
    simp only [List.mem_map] at this
    obtain ⟨p, _, rfl⟩ := this
    exact esLleno_nuevoNodo _ _
  · refine (List.Perm.flatMap_right hojas hp).trans ?_
    have : ∀ l : Mapa Int, (l.map (fun par => nuevoNodo par.1 par.2)).flatMap hojas = l := by
      intro l
      induction l with
      | nil => rfl
      | cons p ps ih => simp only [List.map_cons, List.flatMap_cons, hojas_nuevoNodo, ih]; rfl
    rw [this]

/-- On a non-empty table `construirArbol` returns a tree that is not null, in
which every node has no child or two, and whose leaves are the entries of the
table. -/
theorem construirArbol_estructura (frecuencias : Mapa Int) (hne : frecuencias ≠ []) :
    ∃ r, construirArbol frecuencias = .ok r ∧ esLleno r = true ∧
      (hojas r).Perm frecuencias := by
  obtain ⟨r, hr, hb, hp⟩ := construirArbol_invariante frecuencias hne
    (fun cola => (∀ t ∈ cola, esLleno t = true) ∧ (cola.flatMap hojas).Perm frecuencias)
    (fun cola hl h => combinarPaso_estructura frecuencias cola hl h)
    (encolarHojas_estructura frecuencias)
  exact ⟨r, hr, hb r (by simp), by simpa using hp⟩

/-! ## `generarCodigos` -/

theorem generarCodigos_eq_foldl (t : NodoHuffman) : ∀ (cod : List Bool) (m : Mapa (List Bool)),
    generarCodigos t cod m = (caminos t cod).foldl (fun m p => asignar m p.1 p.2) m := by
  induction t with
  | nulo => intro cod m; simp [generarCodigos, caminos]
  | nodo c f i d ihi ihd =>
    intro cod m
    simp only [generarCodigos, caminos]
    by_cases hh : esHoja (.nodo c f i d) = true
    · have hi : i = .nulo := by
        simp only [esHoja, Bool.and_eq_true, esNulo_iff] at hh; exact hh.1
      have hd : d = .nulo := by
        simp only [esHoja, Bool.and_eq_true, esNulo_iff] at hh; exact hh.2
      subst hi; subst hd
      simp [hh, generarCodigos]
    · simp only [hh, if_false, Bool.false_eq_true]
      rw [ihd, ihi, List.foldl_append]

theorem caminos_map_fst (t : NodoHuffman) : ∀ cod : List Bool,
    (caminos t cod).map Prod.fst = (hojas t).map Prod.fst := by
  induction t with
  | nulo => intro cod; simp [caminos, hojas]
  | nodo c f i d ihi ihd =>
    intro cod
    simp only [caminos, hojas]
    split
    · simp
    · simp [ihi, ihd]

theorem asignar_nuevo {V : Type} (m : Mapa V) (c : Nat) (v : V) (h : c ∉ m.map Prod.fst) :
    asignar m c v = m ++ [(c, v)] := by
  induction m with
  | nil => rfl
  | cons p ps ih =>
    obtain ⟨k, w⟩ := p
    simp only [List.map_cons, List.mem_cons, not_or] at h
    simp only [asignar]
    rw [if_neg (fun e => h.1 e.symm), ih h.2]
    rfl

theorem foldl_asignar_nuevos {V : Type} (l : Mapa V) : ∀ (m : Mapa V),
    ((m ++ l).map Prod.fst).Nodup →
    l.foldl (fun m p => asignar m p.1 p.2) m = m ++ l := by
  induction l with
  | nil => intro m _; simp
  | cons p ps ih =>
    intro m hnd
    simp only [List.foldl_cons]
    have hp : p.1 ∉ m.map Prod.fst := by
      intro hmem
      simp only [List.map_append, List.map_cons] at hnd
      have := (List.nodup_append.mp hnd).2.2
      exact this hmem (by simp)
    rw [asignar_nuevo m p.1 p.2 hp, ih _ (by simpa using hnd)]
    simp

/-- With distinct leaf symbols, `generarCodigos(raiz, "")` on an empty table
produces exactly the list of leaf paths. -/
theorem generarCodigos_eq_caminos (t : NodoHuffman) (hnd : ((hojas t).map Prod.fst).Nodup) :
    generarCodigos t [] [] = caminos t [] := by
  rw [generarCodigos_eq_foldl, foldl_asignar_nuevos]
  · simp
  · simpa [caminos_map_fst] using hnd

theorem caminos_extiende (t : NodoHuffman) : ∀ (cod : List Bool) (p : Nat × List Bool),
    p ∈ caminos t cod → ∃ s, p.2 = cod ++ s := by
  induction t with
  | nulo => intro cod p hp; simp [caminos] at hp
  | nodo c f i d ihi ihd =>
    intro cod p hp
    simp only [caminos] at hp
    split at hp
    · simp only [List.mem_singleton] at hp
      exact ⟨[], by simp [hp]⟩
    · simp only [List.mem_append] at hp
      rcases hp with h | h
      · obtain ⟨s, hs⟩ := ihi _ _ h
        exact ⟨false :: s, by simp [hs]⟩
      · obtain ⟨s, hs⟩ := ihd _ _ h
        exact ⟨true :: s, by simp [hs]⟩

/-- The leaf paths of a well-formed tree are pairwise incomparable. -/
theorem caminos_incomparables (t : NodoHuffman) : ∀ (cod : List Bool),
    (caminos t cod).Pairwise (fun p q => ¬ p.2 <+: q.2 ∧ ¬ q.2 <+: p.2) := by
  induction t with
  | nulo => intro cod; simp [caminos]
  | nodo c f i d ihi ihd =>
    intro cod
    simp only [caminos]
    split
    · simp
    · rw [List.pairwise_append]
      refine ⟨ihi _, ihd _, ?_⟩
      intro p hp q hq
      obtain ⟨s, hs⟩ := caminos_extiende i _ p hp
      obtain ⟨s', hs'⟩ := caminos_extiende d _ q hq
      rw [hs, hs']
      constructor
      · rintro ⟨u, hu⟩
        simp at hu
      · rintro ⟨u, hu⟩
        simp at hu

theorem calcularFrecuencias_replicate_aux (a : Nat) : ∀ (n : Nat) (k : Int),
    (List.replicate n a).foldl incrementar [(a, k)] = [(a, k + n)] := by
  intro n
  induction n with
  | zero => intro k; simp
  | succ m ih =>
    intro k
    simp only [List.replicate_succ, List.foldl_cons, incrementar, if_true]
    rw [ih]
    push_cast
    rw [add_assoc, add_comm 1 (m : Int)]

theorem calcularFrecuencias_replicate (a n : Nat) :
    calcularFrecuencias (List.replicate (n + 1) a) = [(a, (n : Int) + 1)] := by
  simp only [calcularFrecuencias, List.replicate_succ, List.foldl_cons, incrementar]
  rw [calcularFrecuencias_replicate_aux, add_comm]

theorem construirArbol_singleton (a : Nat) (k : Int) :
    construirArbol [(a, k)] = .ok (nuevoNodo a k) := by
  rfl

/-- C2. Prefix-free: for every non-empty frequency table (a map: distinct
keys, in any iteration order), `construirArbol` returns a root, and in the
table produced by `generarCodigos(raiz, "")` no symbol's code is a prefix of a
different symbol's code. -/
theorem generarCodigos_libre_de_prefijos (frecuencias : Mapa Int) (hne : frecuencias ≠ [])
    (hnd : (frecuencias.map Prod.fst).Nodup) :
    ∃ raiz, construirArbol frecuencias = .ok raiz ∧
      ∀ p ∈ generarCodigos raiz [] [], ∀ q ∈ generarCodigos raiz [] [],
        p.1 ≠ q.1 → ¬ p.2 <+: q.2 := by
  obtain ⟨r, hr, _, hp⟩ := construirArbol_estructura frecuencias hne
  refine ⟨r, hr, ?_⟩
  have hnd' : ((hojas r).map Prod.fst).Nodup := (hp.map Prod.fst).nodup_iff.mpr hnd
  rw [generarCodigos_eq_caminos r hnd']
  intro p hp q hq hne'
  have hsym : Symmetric (fun p q : Nat × List Bool => ¬ p.2 <+: q.2 ∧ ¬ q.2 <+: p.2) :=
    fun _ _ h => ⟨h.2, h.1⟩
  have hpq : p ≠ q := fun e => hne' (by rw [e])
  exact ((caminos_incomparables r []).forall hsym hp hq hpq).1

/-- C2, instance: the table `{0x00: 256, 0x01: 256}`. -/
theorem generarCodigos_libre_de_prefijos_witness :
    ([(0, 256), (1, 256)] : Mapa Int) ≠ [] ∧
    (([(0, 256), (1, 256)] : Mapa Int).map Prod.fst).Nodup ∧
    ∃ raiz, construirArbol [(0, 256), (1, 256)] = .ok raiz ∧
      ∀ p ∈ generarCodigos raiz [] [], ∀ q ∈ generarCodigos raiz [] [],
        p.1 ≠ q.1 → ¬ p.2 <+: q.2 :=
  ⟨by decide, by decide, generarCodigos_libre_de_prefijos _ (by decide) (by decide)⟩

/-- C6, the code as written: for every non-empty input made of one repeated
byte, `construirArbol` returns the lone leaf and `generarCodigos(raiz, "")`
yields a table with exactly one entry whose code is the empty string (not the
one-bit string `0`). -/
theorem codigo_de_simbolo_unico_vacio (a n : Nat) :
    construirArbol (calcularFrecuencias (List.replicate (n + 1) a))
      = .ok (nuevoNodo a ((n : Int) + 1)) ∧
    generarCodigos (nuevoNodo a ((n : Int) + 1)) [] [] = [(a, [])] := by
  rw [calcularFrecuencias_replicate, construirArbol_singleton]
  exact ⟨rfl, rfl⟩

/-! ## Optimality: weight trees -/

theorem pesosDe_length_pos (T : ArbolPesos) : 1 ≤ (pesosDe T).length := by
  induction T with
  | hoja w => simp [pesosDe]
  | rama i d ihi ihd => simp only [pesosDe, List.length_append]; omega

theorem alturaP_eq_zero (T : ArbolPesos) (h : alturaP T = 0) : ∃ w, T = .hoja w := by
  cases T with
  | hoja w => exact ⟨w, rfl⟩
  | rama i d => simp [alturaP] at h

/-- A leaf of weight `a` can be given any weight `x ≥ a`; the cost grows by at
most `(x - a)` times the height. -/
theorem reemplazar_hoja : ∀ (T : ArbolPesos) (a x : Int) (resto : List Int),
    (pesosDe T).Perm (a :: resto) → a ≤ x →
    ∃ T', (pesosDe T').Perm (x :: resto) ∧
      costoP T' ≤ costoP T + (x - a) * alturaP T ∧ alturaP T' = alturaP T := by
  intro T
  induction T with
  | hoja w =>
    intro a x resto hp _
    simp only [pesosDe] at hp
    have := List.singleton_perm.mp hp
    injection this with h1 h2
    subst h1; subst h2
    exact ⟨.hoja x, by simp [pesosDe], by simp [costoP, alturaP], rfl⟩
  | rama i d ihi ihd =>
    intro a x resto hp hax
    simp only [pesosDe] at hp
    have hmem : a ∈ pesosDe i ++ pesosDe d := hp.symm.subset (by simp)
    have hxa : (0 : Int) ≤ x - a := by linarith
    rcases List.mem_append.mp hmem with hi | hd
    · have hE := List.perm_cons_erase hi
      obtain ⟨i', h1, h2, h3⟩ := ihi a x _ hE hax
      refine ⟨.rama i' d, ?_, ?_, ?_⟩
      · simp only [pesosDe]
        have h4 : ((pesosDe i).erase a ++ pesosDe d).Perm resto := by
          have := (List.Perm.append_right (pesosDe d) hE).symm.trans hp
          exact (List.perm_cons a).mp this
        exact (List.Perm.append_right _ h1).trans (h4.cons x)
      · have s1 := h1.sum_eq
        have s2 := hE.sum_eq
        simp only [List.sum_cons] at s1 s2
        have hmax : ((alturaP i : Int)) + 1 ≤ (alturaP (.rama i d) : Int) := by
          simp only [alturaP]; push_cast; have := le_max_left (alturaP i : Int) (alturaP d : Int); linarith
        have key := mul_le_mul_of_nonneg_left hmax hxa
        simp only [costoP]
        nlinarith [key]
      · simp [alturaP, h3]
    · have hE := List.perm_cons_erase hd
      obtain ⟨d', h1, h2, h3⟩ := ihd a x _ hE hax
      refine ⟨.rama i d', ?_, ?_, ?_⟩
      · simp only [pesosDe]
        have h4 : (pesosDe i ++ (pesosDe d).erase a).Perm resto := by
          have := (List.Perm.append_left (pesosDe i) hE).symm.trans hp
          exact (List.perm_cons a).mp (List.perm_middle.symm.trans this)
        exact (List.Perm.append_left _ h1).trans (List.perm_middle.trans (h4.cons x))
      · have s1 := h1.sum_eq
        have s2 := hE.sum_eq
        simp only [List.sum_cons] at s1 s2
        have hmax : ((alturaP d : Int)) + 1 ≤ (alturaP (.rama i d) : Int) := by
          simp only [alturaP]; push_cast; have := le_max_right (alturaP i : Int) (alturaP d : Int); linarith
        have key := mul_le_mul_of_nonneg_left hmax hxa
        simp only [costoP]
        nlinarith [key]
      · simp [alturaP, h3]

/-- Two sibling leaves at the greatest depth can be merged into one leaf of any
weight `v`; the cost changes by an exact amount. -/
theorem hermanos_profundos : ∀ (T : ArbolPesos), 1 ≤ alturaP T → ∀ v : Int,
    ∃ x y resto T1, (pesosDe T).Perm (x :: y :: resto) ∧ (pesosDe T1).Perm (v :: resto) ∧
      costoP T1 = costoP T - (x + y) * alturaP T + v * ((alturaP T : Int) - 1) ∧
      alturaP T1 ≤ alturaP T := by
  intro T
  induction T with
  | hoja w => intro h; simp [alturaP] at h
  | rama i d ihi ihd =>
    intro _ v
    by_cases h1 : alturaP d ≤ alturaP i
    · by_cases h0 : alturaP i = 0
      · obtain ⟨x, rfl⟩ := alturaP_eq_zero i h0
        obtain ⟨y, rfl⟩ := alturaP_eq_zero d (by omega)
        refine ⟨x, y, [], .hoja v, by simp [pesosDe], by simp [pesosDe], ?_, by simp [alturaP]⟩
        simp [costoP, alturaP, pesosDe]
      · obtain ⟨x, y, resto, i1, p1, p2, hc, ha⟩ := ihi (by omega) v
        refine ⟨x, y, resto ++ pesosDe d, .rama i1 d, ?_, ?_, ?_, ?_⟩
        · simp only [pesosDe]
          exact List.Perm.append_right _ p1
        · simp only [pesosDe]
          exact List.Perm.append_right _ p2
        · have s1 := p1.sum_eq
          have s2 := p2.sum_eq
          simp only [List.sum_cons] at s1 s2
          have hm : (alturaP (.rama i d) : Int) = alturaP i + 1 := by
            simp only [alturaP]; push_cast; rw [max_eq_left (by exact_mod_cast h1)]
          simp only [costoP]
          rw [hm]
          linear_combination hc + s2 - s1
        · simp only [alturaP]; omega
    · obtain ⟨x, y, resto, d1, p1, p2, hc, ha⟩ := ihd (by omega) v
      refine ⟨x, y, pesosDe i ++ resto, .rama i d1, ?_, ?_, ?_, ?_⟩
      · simp only [pesosDe]
        refine (List.Perm.append_left _ p1).trans ?_
        refine List.perm_middle.trans ?_
        exact (List.perm_middle).cons x
      · simp only [pesosDe]
        exact (List.Perm.append_left _ p2).trans List.perm_middle
      · have s1 := p1.sum_eq
        have s2 := p2.sum_eq
        simp only [List.sum_cons] at s1 s2
        have hm : (alturaP (.rama i d) : Int) = alturaP d + 1 := by
          simp only [alturaP]; push_cast; rw [max_eq_right (by exact_mod_cast (by omega : alturaP i ≤ alturaP d))]
        simp only [costoP]
        rw [hm]
        linear_combination hc + s2 - s1
      · simp only [alturaP]; omega

/-- After two deepest siblings `x`, `y` are merged into a leaf `v`, the leaves
`a ≤ b`, the two lightest, can be traded for `x` and `y`. -/
theorem dos_reemplazos (T1 : ArbolPesos) (h : Nat) (v x y a b : Int) (r1 resto : List Int)
    (hT1 : (pesosDe T1).Perm (v :: r1)) (hM : (x :: y :: r1).Perm (a :: b :: resto))
    (hab : a ≤ b) (hb : ∀ z ∈ resto, b ≤ z) (halt : alturaP T1 ≤ h) :
    ∃ T2, (pesosDe T2).Perm (v :: resto) ∧ costoP T2 ≤ costoP T1 + (x + y - a - b) * h := by
  have hh : (alturaP T1 : Int) ≤ (h : Int) := by exact_mod_cast halt
  have h0 : (0 : Int) ≤ (h : Int) := by positivity
  -- one replacement, then the bound in terms of `h`
  have uno : ∀ (T : ArbolPesos) (p q : Int) (E : List Int), alturaP T ≤ h →
      (pesosDe T).Perm (p :: E) → p ≤ q →
      ∃ T', (pesosDe T').Perm (q :: E) ∧ costoP T' ≤ costoP T + (q - p) * h ∧
        alturaP T' ≤ h := by
    intro T p q E hTh hp hpq
    obtain ⟨T', a1, a2, a3⟩ := reemplazar_hoja T p q E hp hpq
    refine ⟨T', a1, ?_, by omega⟩
    have hTh' : (alturaP T : Int) ≤ (h : Int) := by exact_mod_cast hTh
    have := mul_le_mul_of_nonneg_left hTh' (by linarith : (0 : Int) ≤ q - p)
    linarith
  have ha : a ∈ x :: y :: r1 := hM.symm.subset (by simp)
  by_cases hax : a ∈ r1
  · -- `a` is outside the merged pair
    have hE := List.perm_cons_erase hax
    have hM1 : (x :: y :: r1.erase a).Perm (b :: resto) := by
      rw [List.perm_iff_count]; intro z
      have c1 := hM.count_eq z; have c2 := hE.count_eq z
      simp only [List.count_cons] at c1 c2 ⊢; omega
    have hbm : b ∈ x :: y :: r1.erase a := hM1.symm.subset (by simp)
    by_cases hbx : b ∈ r1.erase a
    · have hE2 := List.perm_cons_erase hbx
      have hM2 : (x :: y :: (r1.erase a).erase b).Perm resto := by
        rw [List.perm_iff_count]; intro z
        have c1 := hM1.count_eq z; have c2 := hE2.count_eq z
        simp only [List.count_cons] at c1 c2 ⊢; omega
      have hx : b ≤ x := hb x (hM2.subset (by simp))
      have hy : b ≤ y := hb y (hM2.subset (by simp))
      have p1 : (pesosDe T1).Perm (a :: (v :: b :: (r1.erase a).erase b)) := by
        rw [List.perm_iff_count]; intro z
        have c0 := hT1.count_eq z; have c1 := hE.count_eq z; have c2 := hE2.count_eq z
        simp only [List.count_cons] at c0 c1 c2 ⊢; omega
      obtain ⟨T2, q1, q2, q3⟩ := uno T1 a x _ halt p1 (by linarith)
      have p2 : (pesosDe T2).Perm (b :: (x :: v :: (r1.erase a).erase b)) := by
        rw [List.perm_iff_count]; intro z
        have c0 := q1.count_eq z
        simp only [List.count_cons] at c0 ⊢; omega
      obtain ⟨T3, q4, q5, _⟩ := uno T2 b y _ q3 p2 hy
      refine ⟨T3, ?_, by linarith⟩
      rw [List.perm_iff_count]; intro z
      have c0 := q4.count_eq z; have c1 := hM2.count_eq z
      simp only [List.count_cons] at c0 c1 ⊢; omega
    · -- `b` is one of the merged pair
      have hbxy : b = x ∨ b = y := by
        simp only [List.mem_cons] at hbm
        rcases hbm with e | e | e
        · exact Or.inl e
        · exact Or.inr e
        · exact absurd e hbx
      have p1 : (pesosDe T1).Perm (a :: (v :: r1.erase a)) := by
        rw [List.perm_iff_count]; intro z
        have c0 := hT1.count_eq z; have c1 := hE.count_eq z
        simp only [List.count_cons] at c0 c1 ⊢; omega
      rcases hbxy with e | e
      · subst e
        have hM2 : (y :: r1.erase a).Perm resto := (List.perm_cons b).mp hM1
        have hy : b ≤ y := hb y (hM2.subset (by simp))
        obtain ⟨T2, q1, q2, _⟩ := uno T1 a y _ halt p1 (by linarith)
        refine ⟨T2, ?_, by linarith⟩
        rw [List.perm_iff_count]; intro z
        have c0 := q1.count_eq z; have c1 := hM2.count_eq z
        simp only [List.count_cons] at c0 c1 ⊢; omega
      · subst e
        have hM2 : (x :: r1.erase a).Perm resto := by
          rw [List.perm_iff_count]; intro z
          have c1 := hM1.count_eq z
          simp only [List.count_cons] at c1 ⊢; omega
        have hx : b ≤ x := hb x (hM2.subset (by simp))
        obtain ⟨T2, q1, q2, _⟩ := uno T1 a x _ halt p1 (by linarith)
        refine ⟨T2, ?_, by linarith⟩
        rw [List.perm_iff_count]; intro z
        have c0 := q1.count_eq z; have c1 := hM2.count_eq z
        simp only [List.count_cons] at c0 c1 ⊢; omega
  · -- `a` is one of the merged pair; `o` is the other one
    have haxy : a = x ∨ a = y := by
      simp only [List.mem_cons] at ha
      rcases ha with e | e | e
      · exact Or.inl e
      · exact Or.inr e
      · exact absurd e hax
    have otro : ∀ o : Int, x + y = a + o → (o :: r1).Perm (b :: resto) →
        ∃ T2, (pesosDe T2).Perm (v :: resto) ∧ costoP T2 ≤ costoP T1 + (x + y - a - b) * h := by
      intro o hs hM1
      have hbm : b ∈ o :: r1 := hM1.symm.subset (by simp)
      by_cases hbr : b ∈ r1
      · have hE := List.perm_cons_erase hbr
        have hM2 : (o :: r1.erase b).Perm resto := by
          rw [List.perm_iff_count]; intro z
          have c1 := hM1.count_eq z; have c2 := hE.count_eq z
          simp only [List.count_cons] at c1 c2 ⊢; omega
        have ho : b ≤ o := hb o (hM2.subset (by simp))
        have p1 : (pesosDe T1).Perm (b :: (v :: r1.erase b)) := by
          rw [List.perm_iff_count]; intro z
          have c0 := hT1.count_eq z; have c1 := hE.count_eq z
          simp only [List.count_cons] at c0 c1 ⊢; omega
        obtain ⟨T2, q1, q2, _⟩ := uno T1 b o _ halt p1 ho
        refine ⟨T2, ?_, ?_⟩
        · rw [List.perm_iff_count]; intro z
          have c0 := q1.count_eq z; have c1 := hM2.count_eq z
          simp only [List.count_cons] at c0 c1 ⊢; omega
        · have : x + y - a - b = o - b := by linarith
          rw [this]; exact q2
      · have hbo : b = o := by
          simp only [List.mem_cons] at hbm
          rcases hbm with e | e
          · exact e
          · exact absurd e hbr
        subst hbo
        have hM2 : r1.Perm resto := (List.perm_cons b).mp hM1
        refine ⟨T1, hT1.trans (hM2.cons v), ?_⟩
        have : x + y - a - b = 0 := by linarith
        rw [this]; simp
    rcases haxy with e | e
    · subst e
      exact otro y rfl ((List.perm_cons a).mp hM)
    · subst e
      refine otro x (by ring) ?_
      rw [List.perm_iff_count]; intro z
      have c1 := hM.count_eq z
      simp only [List.count_cons] at c1 ⊢; omega

theorem cotaInferior_perm {ws ws' : List Int} {c : Int} (hp : ws.Perm ws')
    (h : CotaInferior ws c) : CotaInferior ws' c :=
  fun T hT => h T (hT.trans hp.symm)

theorem cotaInferior_singleton (w : Int) : CotaInferior [w] 0 := by
  intro T hT
  cases T with
  | hoja _ => simp [costoP]
  | rama i d =>
    have := hT.length_eq
    have hi := pesosDe_length_pos i
    have hd := pesosDe_length_pos d
    simp only [pesosDe, List.length_append, List.length_singleton] at this
    omega

/-- The step of Huffman's argument: if `a ≤ b` are the two lightest weights,
a lower bound for the weights with `a` and `b` merged gives a lower bound for
the original weights. -/
theorem cotaInferior_paso (a b : Int) (resto : List Int) (c : Int) (hab : a ≤ b)
    (hb : ∀ z ∈ resto, b ≤ z) (hc : CotaInferior ((a + b) :: resto) c) :
    CotaInferior (a :: b :: resto) (c + a + b) := by
  intro T hT
  have hh : 1 ≤ alturaP T := by
    by_contra hcon
    obtain ⟨w, rfl⟩ := alturaP_eq_zero T (by omega)
    have := hT.length_eq
    simp [pesosDe] at this
  obtain ⟨x, y, r1, T1, hxy, hT1, hcost, halt⟩ := hermanos_profundos T hh (a + b)
  obtain ⟨T2, hT2, hle⟩ := dos_reemplazos T1 (alturaP T) (a + b) x y a b r1 resto hT1
    (hxy.symm.trans hT) hab hb halt
  have h1 := hc T2 hT2
  have h2 : costoP T1 + (x + y - a - b) * (alturaP T : Int) = costoP T - (a + b) := by
    rw [hcost]; ring
  linarith

/-! ## Optimality: the loop of `construirArbol` -/

theorem frecuenciaDe_nodo (c : Nat) (f : Int) (i d : NodoHuffman) :
    frecuenciaDe (.nodo c f i d) = f := rfl

theorem combinarPaso_minimos (cola : List NodoHuffman) (hl : 1 < cola.length)
    (hc : EsMonticulo cola) :
    cola.Perm (colaTop cola :: colaTop (colaPop cola) :: colaPop (colaPop cola)) ∧
    (combinarPaso cola).Perm
      (.nodo 0 (sumaInt (frecuenciaDe (colaTop cola)) (frecuenciaDe (colaTop (colaPop cola))))
        (colaTop cola) (colaTop (colaPop cola)) :: colaPop (colaPop cola)) ∧
    frecuenciaDe (colaTop cola) ≤ frecuenciaDe (colaTop (colaPop cola)) ∧
    ∀ z ∈ colaPop (colaPop cola),
      frecuenciaDe (colaTop (colaPop cola)) ≤ frecuenciaDe z := by
  have h1 : cola ≠ [] := by intro e; subst e; simp at hl
  have h2 : colaPop cola ≠ [] := by
    intro e
    have := colaPop_length cola
    rw [e] at this; simp at this; omega
  have p1 := colaPop_perm cola h1
  have p2 := colaPop_perm _ h2
  refine ⟨p1.symm.trans (p2.symm.cons _), colaPush_perm _ _, ?_, ?_⟩
  · apply colaTop_le cola hc
    exact p1.subset (List.mem_cons_of_mem _ (colaTop_mem _ h2))
  · intro z hz
    apply colaTop_le _ (colaPop_heap _ hc)
    exact p2.subset (List.mem_cons_of_mem _ hz)

theorem costoInterno_union (f : Int) (i d : NodoHuffman) (hi : esLleno i = true) :
    costoInterno (.nodo 0 f i d) = f + costoInterno i + costoInterno d := by
  simp [costoInterno, esHoja_of_esLleno 0 f i d hi]

theorem costoInterno_nuevoNodo (c : Nat) (f : Int) : costoInterno (nuevoNodo c f) = 0 := by
  simp [costoInterno, nuevoNodo, esHoja, esNulo]

/-! ## Weights: the sum of two `int` without overflow -/

theorem sumaInt_eq (a b : Int) (h1 : -2147483648 ≤ a + b) (h2 : a + b < 2147483648) :
    sumaInt a b = a + b := by
  unfold sumaInt
  omega

theorem abs_suma_le (l : List Int) : |l.sum| ≤ (l.map (fun x => |x|)).sum := by
  induction l with
  | nil => simp
  | cons x xs ih =>
    simp only [List.sum_cons, List.map_cons]
    exact (abs_add x xs.sum).trans (add_le_add_left ih _)

theorem abs_sumaHojas_le (t : NodoHuffman) :
    |sumaHojas t| ≤ ((hojas t).map (fun p => |p.2|)).sum := by
  have := abs_suma_le ((hojas t).map Prod.snd)
  simpa [sumaHojas, List.map_map, Function.comp_def] using this

theorem suma_abs_nonneg (l : Mapa Int) : 0 ≤ (l.map (fun p => |p.2|)).sum := by
  apply List.sum_nonneg
  intro x hx
  simp only [List.mem_map] at hx
  obtain ⟨p, _, rfl⟩ := hx
  exact abs_nonneg _

/-- Positive counts whose sum is below `2^31` are free of overflow. -/
theorem sinDesborde_of_pos (frecuencias : Mapa Int) (hpos : ∀ p ∈ frecuencias, 0 < p.2)
    (hs : (frecuencias.map Prod.snd).sum < 2147483648) : sinDesborde frecuencias := by
  have e : frecuencias.map (fun p => |p.2|) = frecuencias.map Prod.snd :=
    List.map_congr_left (fun p hp => abs_of_pos (hpos p hp))
  unfold sinDesborde
  rw [e]
  exact hs

theorem pesosExactos_nuevoNodo (c : Nat) (f : Int) : pesosExactos (nuevoNodo c f) = true := by
  simp [nuevoNodo, pesosExactos, esNulo]

/-- In a tree with exact weights the `frecuencia` of a node is the sum of the
`frecuencia` of the leaves below it. -/
theorem sumaHojas_of_pesosExactos (t : NodoHuffman) :
    esLleno t = true → pesosExactos t = true → frecuenciaDe t = sumaHojas t := by
  induction t with
  | nulo => intro h; simp [esLleno] at h
  | nodo c f i d ihi ihd =>
    intro hb hw
    simp only [esLleno, Bool.or_eq_true, Bool.and_eq_true, esNulo_iff] at hb
    simp only [pesosExactos, Bool.or_eq_true, Bool.and_eq_true, esNulo_iff,
      decide_eq_true_eq] at hw
    rcases hb with ⟨e1, e2⟩ | ⟨b1, b2⟩
    · subst e1; subst e2
      simp [sumaHojas, hojas, esHoja, esNulo, frecuenciaDe_nodo]
    · rcases hw with ⟨e1, _⟩ | ⟨⟨w1, w2⟩, e⟩
      · exact absurd e1 (esLleno_ne_nulo i b1)
      · have hi := ihi b1 w1
        have hd := ihd b2 w2
        simp only [sumaHojas] at hi hd ⊢
        rw [frecuenciaDe_nodo, hojas_nodo_of_esLleno c f i d b1, List.map_append,
          List.sum_append, ← hi, ← hd, e]

/-- On a queue whose leaves are the entries of a table free of overflow, the
machine sum of the two weights on top is their sum in the integers. -/
theorem sumaInt_cola (frecuencias : Mapa Int) (hs : sinDesborde frecuencias)
    (cola : List NodoHuffman) (hl : 1 < cola.length)
    (hb : ∀ t ∈ cola, esLleno t = true ∧ pesosExactos t = true)
    (hp : (cola.flatMap hojas).Perm frecuencias) :
    sumaInt (frecuenciaDe (colaTop cola)) (frecuenciaDe (colaTop (colaPop cola)))
      = frecuenciaDe (colaTop cola) + frecuenciaDe (colaTop (colaPop cola)) := by
  obtain ⟨resto, h1, _⟩ := combinarPaso_perm cola hl
  obtain ⟨l1, w1⟩ := hb (colaTop cola) (h1.symm.subset (List.mem_cons_self _ _))
  obtain ⟨l2, w2⟩ := hb (colaTop (colaPop cola))
    (h1.symm.subset (List.mem_cons_of_mem _ (List.mem_cons_self _ _)))
  have e1 := sumaHojas_of_pesosExactos _ l1 w1
  have e2 := sumaHojas_of_pesosExactos _ l2 w2
  have a1 := abs_sumaHojas_le (colaTop cola)
  have a2 := abs_sumaHojas_le (colaTop (colaPop cola))
  have q := ((List.Perm.flatMap_right hojas h1).symm.trans hp).map (fun p => |p.2|)
  have s := q.sum_eq
  simp only [List.flatMap_cons, List.map_append, List.sum_append] at s
  have n := suma_abs_nonneg (resto.flatMap hojas)
  have hs2 : (frecuencias.map (fun p => |p.2|)).sum < 2147483648 := hs
  rw [← e1] at a1
  rw [← e2] at a2
  have b1 := abs_le.mp a1
  have b2 := abs_le.mp a2
  apply sumaInt_eq <;> linarith

/-- The weight invariant of the loop of `construirArbol`, for a table free of
overflow: every queued tree carries exact weights. -/
theorem combinarPaso_pesos (frecuencias : Mapa Int) (hs : sinDesborde frecuencias)
    (cola : List NodoHuffman) (hl : 1 < cola.length)
    (h : (∀ t ∈ cola, esLleno t = true ∧ pesosExactos t = true) ∧
      (cola.flatMap hojas).Perm frecuencias) :
    (∀ t ∈ combinarPaso cola, esLleno t = true ∧ pesosExactos t = true) ∧
      ((combinarPaso cola).flatMap hojas).Perm frecuencias := by
  obtain ⟨hb, hp⟩ := h
  have hsum := sumaInt_cola frecuencias hs cola hl hb hp
  obtain ⟨hb2, hp2⟩ := combinarPaso_estructura frecuencias cola hl
    ⟨fun t ht => (hb t ht).1, hp⟩
  refine ⟨fun t ht => ⟨hb2 t ht, ?_⟩, hp2⟩
  obtain ⟨resto, h1, h2⟩ := combinarPaso_perm cola hl
  have w1 := (hb (colaTop cola) (h1.symm.subset (List.mem_cons_self _ _))).2
  have w2 := (hb (colaTop (colaPop cola))
    (h1.symm.subset (List.mem_cons_of_mem _ (List.mem_cons_self _ _)))).2
  have := h2.subset ht
  simp only [List.mem_cons] at this
  rcases this with e | e
  · rw [e]
    simp [pesosExactos, hsum, w1, w2]
  · exact (hb t (h1.symm.subset (by simp [e]))).2

theorem encolarHojas_pesos (frecuencias : Mapa Int) :
    (∀ t ∈ encolarHojas frecuencias, esLleno t = true ∧ pesosExactos t = true) ∧
      ((encolarHojas frecuencias).flatMap hojas).Perm frecuencias := by
  obtain ⟨h1, h2⟩ := encolarHojas_estructura frecuencias
  refine ⟨fun t ht => ⟨h1 t ht, ?_⟩, h2⟩
  have := (encolarHojas_perm frecuencias).subset ht
  simp only [List.mem_map] at this
  obtain ⟨p, _, rfl⟩ := this
  exact pesosExactos_nuevoNodo _ _

/-- The optimality invariant of the loop of `construirArbol`, for a table free
of overflow: a lower bound for the weights in the queue yields, after adding
the cost already spent inside the queued trees, a lower bound for the weights
of the table. -/
theorem combinarPaso_cota (frecuencias : Mapa Int) (hs : sinDesborde frecuencias)
    (cola : List NodoHuffman) (hl : 1 < cola.length)
    (h : ((∀ t ∈ cola, esLleno t = true ∧ pesosExactos t = true) ∧
        (cola.flatMap hojas).Perm frecuencias) ∧ EsMonticulo cola ∧
      ∀ c, CotaInferior (cola.map frecuenciaDe) c →
        CotaInferior (frecuencias.map Prod.snd) (c + (cola.map costoInterno).sum)) :
    ((∀ t ∈ combinarPaso cola, esLleno t = true ∧ pesosExactos t = true) ∧
        ((combinarPaso cola).flatMap hojas).Perm frecuencias) ∧
      EsMonticulo (combinarPaso cola) ∧
      ∀ c, CotaInferior ((combinarPaso cola).map frecuenciaDe) c →
        CotaInferior (frecuencias.map Prod.snd)
          (c + ((combinarPaso cola).map costoInterno).sum) := by
  obtain ⟨hQ, hc, hcota⟩ := h
  have hsum := sumaInt_cola frecuencias hs cola hl hQ.1 hQ.2
  obtain ⟨p1, p2, hab, hmin⟩ := combinarPaso_minimos cola hl hc
  have b1 : esLleno (colaTop cola) = true :=
    (hQ.1 (colaTop cola) (p1.symm.subset (List.mem_cons_self _ _))).1
  refine ⟨combinarPaso_pesos frecuencias hs cola hl hQ, combinarPaso_heap cola hc, ?_⟩
  intro c hcc
  have q2 := (p2.map frecuenciaDe)
  have q1 := (p1.map frecuenciaDe)
  simp only [List.map_cons, frecuenciaDe_nodo, hsum] at q2
  simp only [List.map_cons] at q1
  have k1 := cotaInferior_perm q2 hcc
  have k2 := cotaInferior_paso _ _ _ c hab (by
    intro z hz
    simp only [List.mem_map] at hz
    obtain ⟨t, ht, rfl⟩ := hz
    exact hmin t ht) k1
  have k3 := hcota _ (cotaInferior_perm q1.symm k2)
  have s2 := (p2.map costoInterno).sum_eq
  have s1 := (p1.map costoInterno).sum_eq
  simp only [List.map_cons, List.sum_cons, costoInterno_union _ _ _ b1, hsum] at s2
  simp only [List.map_cons, List.sum_cons] at s1
  have e : c + ((combinarPaso cola).map costoInterno).sum
      = c + frecuenciaDe (colaTop cola) + frecuenciaDe (colaTop (colaPop cola))
        + (cola.map costoInterno).sum := by
    rw [s2, s1]; ring
  rw [e]
  exact k3

theorem encolarHojas_cota (frecuencias : Mapa Int) :
    ((∀ t ∈ encolarHojas frecuencias, esLleno t = true ∧ pesosExactos t = true) ∧
        ((encolarHojas frecuencias).flatMap hojas).Perm frecuencias) ∧
      EsMonticulo (encolarHojas frecuencias) ∧
      ∀ c, CotaInferior ((encolarHojas frecuencias).map frecuenciaDe) c →
        CotaInferior (frecuencias.map Prod.snd)
          (c + ((encolarHojas frecuencias).map costoInterno).sum) := by
  have hp := encolarHojas_perm frecuencias
  refine ⟨encolarHojas_pesos frecuencias, encolarHojas_heap frecuencias, ?_⟩
  intro c hc
  have q1 := hp.map frecuenciaDe
  have s1 := (hp.map costoInterno).sum_eq
  have e1 : (frecuencias.map (fun par => nuevoNodo par.1 par.2)).map frecuenciaDe
      = frecuencias.map Prod.snd := by
    simp [List.map_map, Function.comp_def, nuevoNodo, frecuenciaDe_nodo]
  have e2 : ((frecuencias.map (fun par => nuevoNodo par.1 par.2)).map costoInterno).sum = 0 := by
    simp [List.map_map, Function.comp_def, costoInterno_nuevoNodo]
  rw [e1] at q1
  rw [s1, e2, add_zero]
  exact cotaInferior_perm q1 hc

/-- On a non-empty table free of overflow, the tree returned by
`construirArbol` has the entries of the table at its leaves, carries exact
weights, and spends, merge by merge, no more than any weight tree over the
counts of the table. -/
theorem construirArbol_cota (frecuencias : Mapa Int) (hne : frecuencias ≠ [])
    (hs : sinDesborde frecuencias) :
    ∃ r, construirArbol frecuencias = .ok r ∧ esLleno r = true ∧ pesosExactos r = true ∧
      (hojas r).Perm frecuencias ∧
      CotaInferior (frecuencias.map Prod.snd) (costoInterno r) := by
  obtain ⟨r, hr, hQ, _, hc⟩ := construirArbol_invariante frecuencias hne
    (fun cola => ((∀ t ∈ cola, esLleno t = true ∧ pesosExactos t = true) ∧
        (cola.flatMap hojas).Perm frecuencias) ∧ EsMonticulo cola ∧
      ∀ c, CotaInferior (cola.map frecuenciaDe) c →
        CotaInferior (frecuencias.map Prod.snd) (c + (cola.map costoInterno).sum))
    (fun cola hl h => combinarPaso_cota frecuencias hs cola hl h)
    (encolarHojas_cota frecuencias)
  refine ⟨r, hr, (hQ.1 r (by simp)).1, (hQ.1 r (by simp)).2, by simpa using hQ.2, ?_⟩
  have := hc 0 (cotaInferior_singleton _)
  simpa using this

theorem buscar_of_mem {V : Type} (m : Mapa V) (hnd : (m.map Prod.fst).Nodup)
    (c : Nat) (v : V) (h : (c, v) ∈ m) : buscar m c = some v := by
  induction m with
  | nil => simp at h
  | cons p ps ih =>
    obtain ⟨k, w⟩ := p
    simp only [List.map_cons, List.nodup_cons] at hnd
    simp only [List.mem_cons, Prod.mk.injEq] at h
    simp only [buscar]
    rcases h with ⟨e1, e2⟩ | h
    · simp [e1, e2]
    · have hk : k ≠ c := by
        intro e
        apply hnd.1
        rw [e]
        exact List.mem_map_of_mem Prod.fst h
      rw [if_neg hk]
      exact ih hnd.2 h

theorem cuentaDe_of_mem (frecuencias : Mapa Int) (hnd : (frecuencias.map Prod.fst).Nodup)
    (p : Nat × Int) (h : p ∈ frecuencias) : cuentaDe frecuencias p.1 = p.2 := by
  simp [cuentaDe, buscar_of_mem frecuencias hnd p.1 p.2 h]


/-- In a tree with exact weights whose leaves carry the counts of their
symbols, the weighted path length is the sum of the weights of the nodes with
children. -/
theorem longitudPonderada_eq_costoInterno (cuenta : Nat → Int) (t : NodoHuffman) :
    esLleno t = true → pesosExactos t = true → (∀ p ∈ hojas t, p.2 = cuenta p.1) →
    ∀ prof : Nat, longitudPonderada cuenta t prof = costoInterno t + prof * frecuenciaDe t := by
  induction t with
  | nulo => intro h; simp [esLleno] at h
  | nodo c f i d ihi ihd =>
    intro hb hw hh prof
    simp only [esLleno, Bool.or_eq_true, Bool.and_eq_true, esNulo_iff] at hb
    simp only [pesosExactos, Bool.or_eq_true, Bool.and_eq_true, esNulo_iff,
      decide_eq_true_eq] at hw
    rcases hb with ⟨e1, e2⟩ | ⟨b1, b2⟩
    · subst e1; subst e2
      have := hh (c, f) (by simp [hojas, esHoja, esNulo])
      simp only at this
      simp [longitudPonderada, costoInterno, esHoja, esNulo, frecuenciaDe_nodo, this, mul_comm]
    · have hnh := esHoja_of_esLleno c f i d b1
      have hwe : (pesosExactos i = true ∧ pesosExactos d = true) ∧
          f = frecuenciaDe i + frecuenciaDe d := by
        rcases hw with ⟨e1, _⟩ | hw
        · exact absurd e1 (esLleno_ne_nulo i b1)
        · exact hw
      obtain ⟨⟨w1, w2⟩, e⟩ := hwe
      have hhi : ∀ p ∈ hojas i, p.2 = cuenta p.1 := fun p hp =>
        hh p (by simp [hojas, hnh, hp])
      have hhd : ∀ p ∈ hojas d, p.2 = cuenta p.1 := fun p hp =>
        hh p (by simp [hojas, hnh, hp])
      have e1 : longitudPonderada cuenta (.nodo c f i d) prof
          = longitudPonderada cuenta i (prof + 1) + longitudPonderada cuenta d (prof + 1) := by
        simp [longitudPonderada, hnh]
      have e2 : costoInterno (.nodo c f i d) = f + costoInterno i + costoInterno d := by
        simp [costoInterno, hnh]
      rw [e1, e2, ihi b1 w1 hhi, ihd b2 w2 hhd, frecuenciaDe_nodo, e]
      push_cast
      ring

theorem esHoja_false_of_ne (c : Nat) (f : Int) (i d : NodoHuffman)
    (h : i ≠ .nulo ∨ d ≠ .nulo) : esHoja (.nodo c f i d) = false := by
  cases i with
  | nulo =>
    cases d with
    | nulo => simp at h
    | nodo _ _ _ _ => simp [esHoja, esNulo]
  | nodo _ _ _ _ => simp [esHoja, esNulo]

theorem hojas_nodo (c : Nat) (f : Int) (i d : NodoHuffman)
    (h : esHoja (.nodo c f i d) = false) : hojas (.nodo c f i d) = hojas i ++ hojas d := by
  simp only [hojas, h, Bool.false_eq_true, if_false]

theorem longitudPonderada_nodo (cuenta : Nat → Int) (c : Nat) (f : Int) (i d : NodoHuffman)
    (prof : Nat) (h : esHoja (.nodo c f i d) = false) :
    longitudPonderada cuenta (.nodo c f i d) prof
      = longitudPonderada cuenta i (prof + 1) + longitudPonderada cuenta d (prof + 1) := by
  simp only [longitudPonderada, h, Bool.false_eq_true, if_false]

theorem suma_cuentas_nonneg (cuenta : Nat → Int) (l : List (Nat × Int))
    (h : ∀ p ∈ l, 0 ≤ cuenta p.1) : 0 ≤ (l.map (fun p => cuenta p.1)).sum := by
  apply List.sum_nonneg
  intro x hx
  simp only [List.mem_map] at hx
  obtain ⟨p, hp, rfl⟩ := hx
  exact h p hp

/-- Contracting the nodes with a single child gives a weight tree over the
counts of the leaf symbols that costs no more (counts are non-negative). -/
theorem contraer_spec (cuenta : Nat → Int) (t : NodoHuffman) :
    t ≠ .nulo → (∀ p ∈ hojas t, 0 ≤ cuenta p.1) →
    ∃ T, contraer cuenta t = some T ∧ pesosDe T = (hojas t).map (fun p => cuenta p.1) ∧
      ∀ prof : Nat, costoP T + prof * (pesosDe T).sum ≤ longitudPonderada cuenta t prof := by
  induction t with
  | nulo => intro h; exact absurd rfl h
  | nodo c f i d ihi ihd =>
    intro _ hh
    by_cases hi : i = .nulo
    · by_cases hd : d = .nulo
      · subst hi; subst hd
        refine ⟨.hoja (cuenta c), by simp [contraer], by simp [pesosDe, hojas, esHoja, esNulo], ?_⟩
        intro prof
        simp [costoP, pesosDe, longitudPonderada, esHoja, esNulo, mul_comm]
      · have hnh := esHoja_false_of_ne c f i d (Or.inr hd)
        rw [hojas_nodo c f i d hnh] at hh
        subst hi
        obtain ⟨T, h1, h2, h3⟩ := ihd hd (fun p hp => hh p (by simp [hojas, hp]))
        refine ⟨T, by simp only [contraer, h1], by rw [hojas_nodo _ _ _ _ hnh, h2]; simp [hojas], ?_⟩
        intro prof
        have hs : 0 ≤ (pesosDe T).sum := by
          rw [h2]
          exact suma_cuentas_nonneg cuenta _ (fun p hp => hh p (by simp [hojas, hp]))
        have := h3 (prof + 1)
        rw [longitudPonderada_nodo _ _ _ _ _ _ hnh]
        simp only [longitudPonderada, zero_add]
        push_cast at this
        linarith
    · have hnh := esHoja_false_of_ne c f i d (Or.inl hi)
      rw [hojas_nodo c f i d hnh] at hh
      obtain ⟨Ti, a1, a2, a3⟩ := ihi hi (fun p hp => hh p (by simp [hp]))
      by_cases hd : d = .nulo
      · subst hd
        refine ⟨Ti, by simp only [contraer, a1], by rw [hojas_nodo _ _ _ _ hnh, a2]; simp [hojas], ?_⟩
        intro prof
        have hs : 0 ≤ (pesosDe Ti).sum := by
          rw [a2]
          exact suma_cuentas_nonneg cuenta _ (fun p hp => hh p (by simp [hp]))
        have := a3 (prof + 1)
        rw [longitudPonderada_nodo _ _ _ _ _ _ hnh]
        simp only [longitudPonderada, add_zero]
        push_cast at this
        linarith
      · obtain ⟨Td, b1, b2, b3⟩ := ihd hd (fun p hp => hh p (by simp [hp]))
        refine ⟨.rama Ti Td, by simp only [contraer, a1, b1],
          by rw [hojas_nodo _ _ _ _ hnh]; simp [pesosDe, a2, b2], ?_⟩
        intro prof
        have h1 := a3 (prof + 1)
        have h2 := b3 (prof + 1)
        rw [longitudPonderada_nodo _ _ _ _ _ _ hnh]
        simp only [costoP, pesosDe, List.sum_append]
        push_cast at h1 h2
        linarith

theorem bytes64_length (n : Nat) : (bytes64 n).length = 8 := rfl

theorem deBytes_bytes64 (n : Nat) (h : n < 2 ^ 64) : deBytes (bytes64 n) = n := by
  simp only [deBytes, bytes64, List.foldr_cons, List.foldr_nil]
  norm_num
  omega

theorem bitsANat_append (bits : List Bool) (b : Bool) :
    bitsANat (bits ++ [b]) = 2 * bitsANat bits + (if b then 1 else 0) := by
  simp [bitsANat, List.foldl_append]

theorem cadenaDeBitset_length (N n : Nat) : (cadenaDeBitset N n).length = N := by
  simp [cadenaDeBitset]

theorem cadenaDeBitset_zero (N : Nat) : cadenaDeBitset N 0 = List.replicate N false := by
  apply List.ext_getElem
  · simp [cadenaDeBitset]
  · intro i h1 h2
    simp [cadenaDeBitset]

theorem cadenaDeBitset_succ (N n : Nat) (b : Bool) :
    cadenaDeBitset (N + 1) (2 * n + (if b then 1 else 0)) = cadenaDeBitset N n ++ [b] := by
  apply List.ext_getElem
  · simp [cadenaDeBitset]
  · intro i h1 h2
    simp only [cadenaDeBitset, List.length_map, List.length_range] at h1
    by_cases hi : i < N
    · rw [List.getElem_append_left (by simpa [cadenaDeBitset] using hi)]
      simp only [cadenaDeBitset, List.getElem_map, List.getElem_range]
      have e : N + 1 - 1 - i = (N - 1 - i) + 1 := by omega
      rw [e, pow_succ]
      have : (2 * n + (if b then 1 else 0)) / (2 ^ (N - 1 - i) * 2) = n / 2 ^ (N - 1 - i) := by
        rw [mul_comm (2 ^ (N - 1 - i)) 2, ← Nat.div_div_eq_div_mul]
        have h2 : (2 * n + (if b then 1 else 0)) / 2 = n := by
          cases b
          · simp
          · simp; omega
        rw [h2]
      rw [this]
    · have hiN : i = N := by omega
      subst hiN
      rw [List.getElem_append_right (by simp [cadenaDeBitset])]
      simp only [cadenaDeBitset, List.getElem_map, List.getElem_range, List.length_map,
        List.length_range, Nat.sub_self, List.getElem_cons_zero]
      cases b
      · simp
      · simp
        omega

theorem cadenaDeBitset_bitsANat (bits : List Bool) : ∀ K : Nat,
    cadenaDeBitset (K + bits.length) (bitsANat bits) = List.replicate K false ++ bits := by
  induction bits using List.reverseRecOn with
  | nil => intro K; simp [bitsANat, cadenaDeBitset_zero]
  | append_singleton bs b ih =>
    intro K
    rw [bitsANat_append, List.length_append, List.length_singleton, ← Nat.add_assoc,
      cadenaDeBitset_succ, ih, List.append_assoc]

/-- A code of at most 64 bits survives `bitset<64>(codigo).to_ullong()`
followed by `bitset<64>(n).to_string().substr(64 - len, len)`. -/
theorem codigo_ida_y_vuelta (cod : List Bool) (h : cod.length ≤ 64) :
    ((cadenaDeBitset 64 (bitsetDeCadena 64 cod)).drop (64 - cod.length)).take cod.length
      = cod := by
  have e : (64 : Nat) = (64 - cod.length) + cod.length := by omega
  have ht : cod.take 64 = cod := List.take_of_length_le h
  rw [bitsetDeCadena, ht]
  conv_lhs => rw [e]
  rw [cadenaDeBitset_bitsANat]
  have e2 : 64 - cod.length + cod.length - cod.length = 64 - cod.length := by omega
  rw [e2, List.drop_left' (by simp)]
  exact List.take_of_length_le (le_refl _)

theorem bitsANat_lt (bits : List Bool) : bitsANat bits < 2 ^ bits.length := by
  induction bits using List.reverseRecOn with
  | nil => simp [bitsANat]
  | append_singleton bs b ih =>
    rw [bitsANat_append, List.length_append, List.length_singleton, pow_succ]
    cases b <;> simp <;> omega

theorem bitsetDeCadena_lt (N : Nat) (cod : List Bool) : bitsetDeCadena N cod < 2 ^ N := by
  unfold bitsetDeCadena
  have h1 := bitsANat_lt (cod.take N)
  have h2 : (cod.take N).length ≤ N := by simp
  exact lt_of_lt_of_le h1 (Nat.pow_le_pow_right (by norm_num) h2)

theorem leerTabla_entrada (n : Nat) (par : Nat × List Bool) (resto : List Nat)
    (m : Mapa (List Bool)) (h1 : par.1 < 256) (h2 : par.2.length ≤ 64) :
    leerTabla (n + 1) (escribirEntrada par ++ resto) m
      = leerTabla n resto (asignar m par.1 par.2) := by
  have hv := deBytes_bytes64 _ (bitsetDeCadena_lt 64 par.2)
  have hl : par.2.length % 256 = par.2.length := Nat.mod_eq_of_lt (by omega)
  have hc : par.1 % 256 = par.1 := Nat.mod_eq_of_lt h1
  simp only [bytes64] at hv
  simp only [escribirEntrada, bytes64, List.cons_append, List.nil_append, leerTabla, hl, hc]
  rw [if_neg (by omega), hv, codigo_ida_y_vuelta par.2 h2]
  rfl

theorem leerTabla_escribir (tabla : Mapa (List Bool)) : ∀ (resto : List Nat)
    (m : Mapa (List Bool)), (∀ p ∈ tabla, p.1 < 256 ∧ p.2.length ≤ 64) →
    leerTabla tabla.length (tabla.flatMap escribirEntrada ++ resto) m
      = .ok (tabla.foldl (fun m p => asignar m p.1 p.2) m, resto) := by
  induction tabla with
  | nil => intro resto m _; simp [leerTabla]
  | cons p ps ih =>
    intro resto m h
    have hp := h p (by simp)
    simp only [List.length_cons, List.flatMap_cons, List.append_assoc, List.foldl_cons]
    rw [leerTabla_entrada _ _ _ _ hp.1 hp.2]
    exact ih _ _ (fun q hq => h q (by simp [hq]))

theorem escribirEntrada_length (par : Nat × List Bool) : (escribirEntrada par).length = 10 := rfl

theorem tabla_escrita_length (tabla : Mapa (List Bool)) :
    (tabla.flatMap escribirEntrada).length = 10 * tabla.length := by
  induction tabla with
  | nil => rfl
  | cons p ps ih =>
    simp only [List.flatMap_cons, List.length_append, escribirEntrada_length, ih,
      List.length_cons]
    omega

theorem escribirTexto_length (fuel : Nat) : ∀ texto : List Bool, texto.length ≤ fuel →
    (escribirTexto fuel texto).length = (texto.length + 7) / 8 := by
  induction fuel with
  | zero =>
    intro texto h
    have : texto = [] := List.length_eq_zero.mp (by omega)
    subst this
    rfl
  | succ n ih =>
    intro texto h
    simp only [escribirTexto]
    split
    · rename_i hpos
      simp only [List.length_cons]
      rw [ih _ (by simp only [List.length_drop]; omega), List.length_drop]
      omega
    · have : texto = [] := List.length_eq_zero.mp (by omega)
      subst this
      rfl

theorem leerArchivoBinario_guardar (d : DescompresorHuffman) (tabla : Mapa (List Bool))
    (texto : List Bool) (hl : tabla.length < 2 ^ 64)
    (h : ∀ p ∈ tabla, p.1 < 256 ∧ p.2.length ≤ 64) :
    leerArchivoBinario d (guardarArchivoBinario tabla texto)
      = .ok (DescompresorHuffman.mk
          (ArbolHuffman.mk d.arbol.raiz (tabla.foldl (fun m p => asignar m p.1 p.2) [])),
        (escribirTexto texto.length texto).flatMap (cadenaDeBitset 8)) := by
  have hmod : tabla.length % 2 ^ 64 = tabla.length := Nat.mod_eq_of_lt hl
  have e1 : (guardarArchivoBinario tabla texto).take 8 = bytes64 tabla.length := by
    simp only [guardarArchivoBinario, hmod, List.append_assoc]
    exact List.take_left' (bytes64_length _)
  have e2 : (guardarArchivoBinario tabla texto).drop 8
      = tabla.flatMap escribirEntrada ++ escribirTexto texto.length texto := by
    simp only [guardarArchivoBinario, hmod, List.append_assoc]
    exact List.drop_left' (bytes64_length _)
  have e3 : ¬ (guardarArchivoBinario tabla texto).length < 8 := by
    simp only [guardarArchivoBinario, List.length_append, bytes64_length]
    omega
  simp only [leerArchivoBinario, if_neg e3, e1, e2, deBytes_bytes64 _ hl,
    leerTabla_escribir tabla _ [] h]

theorem length_le_of_nodup_lt (l : List Nat) (n : Nat) (hnd : l.Nodup) (h : ∀ x ∈ l, x < n) :
    l.length ≤ n := by
  have hsub : l ⊆ List.range n := fun x hx => List.mem_range.mpr (h x hx)
  have := (List.subperm_of_subset hnd hsub).length_le
  simpa using this

/-- C8. Code-table serialisation round trip: for every code table (distinct
symbols, each a byte) in which every code has between 0 and 64 bits, and for
every payload, `leerArchivoBinario` on the bytes written by
`guardarArchivoBinario` succeeds and leaves in `codigosHuffman` the table that
was written: the same symbols, each with the same bit string. -/
theorem tabla_ida_y_vuelta (d : DescompresorHuffman) (tabla : Mapa (List Bool))
    (texto : List Bool) (hnd : (tabla.map Prod.fst).Nodup)
    (h : ∀ p ∈ tabla, p.1 < 256 ∧ p.2.length ≤ 64) :
    ∃ r, leerArchivoBinario d (guardarArchivoBinario tabla texto) = .ok r ∧
      r.1.arbol.codigosHuffman = tabla ∧
      ∀ c, buscar r.1.arbol.codigosHuffman c = buscar tabla c := by
  have hl : tabla.length < 2 ^ 64 := by
    have := length_le_of_nodup_lt (tabla.map Prod.fst) 256 hnd (by
      intro x hx
      simp only [List.mem_map] at hx
      obtain ⟨p, hp, rfl⟩ := hx
      exact (h p hp).1)
    simp only [List.length_map] at this
    exact lt_of_le_of_lt this (by norm_num)
  have e : tabla.foldl (fun m p => asignar m p.1 p.2) [] = tabla := by
    rw [foldl_asignar_nuevos tabla [] (by simpa using hnd)]
    simp
  refine ⟨_, leerArchivoBinario_guardar d tabla texto hl h, ?_, ?_⟩
  · exact e
  · intro c
    simp only [e]

/-- C8, instance: the table `{0x61: "0", 0x62: "10", 0x63: "11"}` with the
payload `"0101"`, read by a decompressor whose tree is still null. -/
theorem tabla_ida_y_vuelta_witness :
    (([(97, [false]), (98, [true, false]), (99, [true, true])] : Mapa (List Bool)).map
      Prod.fst).Nodup ∧
    (∀ p ∈ ([(97, [false]), (98, [true, false]), (99, [true, true])] : Mapa (List Bool)),
      p.1 < 256 ∧ p.2.length ≤ 64) ∧
    ∃ r, leerArchivoBinario (DescompresorHuffman.mk (ArbolHuffman.mk .nulo []))
        (guardarArchivoBinario [(97, [false]), (98, [true, false]), (99, [true, true])]
          [false, true, false, true]) = .ok r ∧
      r.1.arbol.codigosHuffman = [(97, [false]), (98, [true, false]), (99, [true, true])] ∧
      ∀ c, buscar r.1.arbol.codigosHuffman c
        = buscar [(97, [false]), (98, [true, false]), (99, [true, true])] c :=
  ⟨by decide, by decide, tabla_ida_y_vuelta _ _ _ (by decide) (by decide)⟩

/-! ## `calcularFrecuencias` and the encoding loop -/

theorem incrementar_claves (m : Mapa Int) (c : Nat) :
    (incrementar m c).map Prod.fst
      = if c ∈ m.map Prod.fst then m.map Prod.fst else m.map Prod.fst ++ [c] := by
  induction m with
  | nil => simp [incrementar]
  | cons p ps ih =>
    obtain ⟨k, n⟩ := p
    simp only [incrementar]
    by_cases hk : k = c
    · simp [hk]
    · have hck : ¬ c = k := fun e => hk e.symm
      simp only [if_neg hk, List.map_cons, ih, List.mem_cons, hck, false_or]
      split <;> simp

theorem calcularFrecuencias_aux (entrada : List Nat) : ∀ m : Mapa Int,
    (m.map Prod.fst).Nodup →
    ((entrada.foldl incrementar m).map Prod.fst).Nodup ∧
      ∀ x, x ∈ (entrada.foldl incrementar m).map Prod.fst ↔ (x ∈ m.map Prod.fst ∨ x ∈ entrada) := by
  induction entrada with
  | nil => intro m h; simp [h]
  | cons c cs ih =>
    intro m h
    have hnd : ((incrementar m c).map Prod.fst).Nodup := by
      rw [incrementar_claves]
      split
      · exact h
      · rename_i hc
        exact List.nodup_append.mpr ⟨h, by simp, by
          intro a ha hb
          simp only [List.mem_singleton] at hb
          subst hb
          exact hc ha⟩
    obtain ⟨a1, a2⟩ := ih (incrementar m c) hnd
    refine ⟨a1, fun x => ?_⟩
    simp only [List.foldl_cons, a2, incrementar_claves, List.mem_cons]
    split
    · rename_i hc
      constructor
      · rintro (h1 | h1)
        · exact Or.inl h1
        · exact Or.inr (Or.inr h1)
      · rintro (h1 | h1 | h1)
        · exact Or.inl h1
        · subst h1; exact Or.inl hc
        · exact Or.inr h1
    · simp only [List.mem_append, List.mem_singleton]
      tauto

theorem calcularFrecuencias_nodup (entrada : List Nat) :
    ((calcularFrecuencias entrada).map Prod.fst).Nodup :=
  (calcularFrecuencias_aux entrada [] (by simp)).1

theorem calcularFrecuencias_claves (entrada : List Nat) (x : Nat) :
    x ∈ (calcularFrecuencias entrada).map Prod.fst ↔ x ∈ entrada := by
  simpa using (calcularFrecuencias_aux entrada [] (by simp)).2 x

theorem calcularFrecuencias_ne_nil (entrada : List Nat) (h : entrada ≠ []) :
    calcularFrecuencias entrada ≠ [] := by
  cases entrada with
  | nil => exact absurd rfl h
  | cons c cs =>
    intro e
    have := (calcularFrecuencias_claves (c :: cs) c).mpr (by simp)
    rw [e] at this
    simp at this

theorem buscar_isSome_of_mem {V : Type} (m : Mapa V) (c : Nat) (h : c ∈ m.map Prod.fst) :
    ∃ v, buscar m c = some v := by
  induction m with
  | nil => simp at h
  | cons p ps ih =>
    obtain ⟨k, w⟩ := p
    simp only [buscar]
    by_cases hk : k = c
    · exact ⟨w, by simp [hk]⟩
    · simp only [if_neg hk]
      apply ih
      simp only [List.map_cons, List.mem_cons] at h
      rcases h with e | e
      · exact absurd e.symm hk
      · exact e

/-- When every byte of the input has an entry, the encoding loop concatenates
the codes of the bytes and leaves the table unchanged. -/
theorem codificar_eq (m : Mapa (List Bool)) : ∀ entrada : List Nat,
    (∀ c ∈ entrada, c ∈ m.map Prod.fst) →
    codificar entrada m = (entrada.flatMap (fun c => (buscar m c).getD []), m) := by
  intro entrada
  induction entrada with
  | nil => intro _; rfl
  | cons c cs ih =>
    intro h
    obtain ⟨v, hv⟩ := buscar_isSome_of_mem m c (h c (by simp))
    have hi : indexar m c = (v, m) := by simp [indexar, hv]
    simp only [codificar, hi, ih (fun x hx => h x (by simp [hx])), List.flatMap_cons, hv,
      Option.getD_some]

/-- For a non-empty input the table built by `comprimirArchivo` is the list of
leaf paths of the tree, and it has an entry for exactly the bytes of the input. -/
theorem tablaDeCodigos_spec (entrada : List Nat) (hne : entrada ≠ []) :
    ∃ raiz, construirArbol (calcularFrecuencias entrada) = .ok raiz ∧
      esLleno raiz = true ∧
      (hojas raiz).Perm (calcularFrecuencias entrada) ∧
      tablaDeCodigos entrada = caminos raiz [] ∧
      ((tablaDeCodigos entrada).map Prod.fst).Nodup ∧
      ∀ x, x ∈ (tablaDeCodigos entrada).map Prod.fst ↔ x ∈ entrada := by
  obtain ⟨r, hr, hb, hp⟩ := construirArbol_estructura _ (calcularFrecuencias_ne_nil entrada hne)
  have hnd : ((hojas r).map Prod.fst).Nodup :=
    (hp.map Prod.fst).nodup_iff.mpr (calcularFrecuencias_nodup entrada)
  have ht : tablaDeCodigos entrada = caminos r [] := by
    simp only [tablaDeCodigos, hr, generarCodigos_eq_caminos r hnd]
  refine ⟨r, hr, hb, hp, ht, ?_, ?_⟩
  · rw [ht, caminos_map_fst]; exact hnd
  · intro x
    rw [ht, caminos_map_fst, (hp.map Prod.fst).mem_iff, calcularFrecuencias_claves]

theorem comprimirArchivo_eq (entrada : List Nat) (hne : entrada ≠ []) :
    comprimirArchivo entrada
        = .ok (guardarArchivoBinario (tablaDeCodigos entrada) (textoCodificadoDe entrada)) ∧
      textoCodificadoDe entrada
        = entrada.flatMap (fun c => (buscar (tablaDeCodigos entrada) c).getD []) := by
  obtain ⟨r, hr, _, _, _, _, hk⟩ := tablaDeCodigos_spec entrada hne
  have hcod := codificar_eq (tablaDeCodigos entrada) entrada (fun c hc => (hk c).mpr hc)
  have ht : tablaDeCodigos entrada = generarCodigos r [] [] := by
    simp only [tablaDeCodigos, hr]
  constructor
  · simp only [comprimirArchivo, hr, textoCodificadoDe]
    rw [← ht, hcod]
  · simp only [textoCodificadoDe, hcod]

theorem length_flatMap_codigos (m : Mapa (List Bool)) (entrada : List Nat) :
    (entrada.flatMap (fun c => (buscar m c).getD [])).length
      = (entrada.map (fun c => ((buscar m c).getD []).length)).sum := by
  induction entrada with
  | nil => rfl
  | cons c cs ih => simp [List.flatMap_cons, ih]

theorem guardarArchivoBinario_length (tabla : Mapa (List Bool)) (texto : List Bool) :
    (guardarArchivoBinario tabla texto).length
      = 8 + 10 * tabla.length + (texto.length + 7) / 8 := by
  simp only [guardarArchivoBinario, List.length_append, bytes64_length, tabla_escrita_length,
    escribirTexto_length _ _ (le_refl _)]

theorem cadenas_length (bs : List Nat) : (bs.flatMap (cadenaDeBitset 8)).length = 8 * bs.length := by
  induction bs with
  | nil => rfl
  | cons b t ih =>
    simp only [List.flatMap_cons, List.length_append, cadenaDeBitset_length, ih, List.length_cons]
    omega

theorem tablaDeCodigos_length_lt (entrada : List Nat) (hne : entrada ≠ [])
    (hb : ∀ x ∈ entrada, x < 256) : (tablaDeCodigos entrada).length < 2 ^ 64 := by
  obtain ⟨_, _, _, _, _, hnd, hk⟩ := tablaDeCodigos_spec entrada hne
  have := length_le_of_nodup_lt _ 256 hnd (fun x hx => hb x ((hk x).mp hx))
  simp only [List.length_map] at this
  exact lt_of_le_of_lt this (by norm_num)

/-- C4, counterexample: for the input `00 01` the eight bytes that follow the
entry count are the first table record (`00 01 00 ...`, the value 256 as a
64-bit field), not the bit-length 2 of the encoded sequence. -/
theorem sin_campo_de_longitud_contraejemplo :
    comprimirArchivo [0, 1]
      = .ok [2, 0, 0, 0, 0, 0, 0, 0, 0, 1, 0, 0, 0, 0, 0, 0, 0, 0,
          1, 1, 1, 0, 0, 0, 0, 0, 0, 0, 1] ∧
    (textoCodificadoDe [0, 1]).length = 2 ∧
    deBytes (([2, 0, 0, 0, 0, 0, 0, 0, 0, 1, 0, 0, 0, 0, 0, 0, 0, 0,
          1, 1, 1, 0, 0, 0, 0, 0, 0, 0, 1].drop 8).take 8) = 256 :=
  ⟨rfl, rfl, rfl⟩

/-- C4, amended: for every non-empty input the container written by
`guardarArchivoBinario` has no bit-length field: the 8-byte entry count is
followed at once by the 10-byte table records and then by the payload, so the
container has `8 + 10 * entries + ⌈L / 8⌉` bytes, where `L`, the length of the
encoded bit sequence built in `comprimirArchivo`, is the sum over the input's
bytes of the length of each byte's code. -/
theorem contenedor_sin_campo_de_longitud (entrada : List Nat) (hne : entrada ≠ []) :
    comprimirArchivo entrada
        = .ok (guardarArchivoBinario (tablaDeCodigos entrada) (textoCodificadoDe entrada)) ∧
    (textoCodificadoDe entrada).length
        = (entrada.map (fun c => ((buscar (tablaDeCodigos entrada) c).getD []).length)).sum ∧
    (guardarArchivoBinario (tablaDeCodigos entrada) (textoCodificadoDe entrada)).drop 8
        = (tablaDeCodigos entrada).flatMap escribirEntrada
          ++ escribirTexto (textoCodificadoDe entrada).length (textoCodificadoDe entrada) ∧
    (guardarArchivoBinario (tablaDeCodigos entrada) (textoCodificadoDe entrada)).length
        = 8 + 10 * (tablaDeCodigos entrada).length
          + ((textoCodificadoDe entrada).length + 7) / 8 := by
  obtain ⟨h1, h2⟩ := comprimirArchivo_eq entrada hne
  refine ⟨h1, ?_, ?_, guardarArchivoBinario_length _ _⟩
  · rw [h2, length_flatMap_codigos]
  · simp only [guardarArchivoBinario, List.append_assoc]
    exact List.drop_left' (bytes64_length _)

/-- C4, amended, instance: the input `00 01 01`. -/
theorem contenedor_sin_campo_de_longitud_witness :
    ([0, 1, 1] : List Nat) ≠ [] ∧
    comprimirArchivo [0, 1, 1]
        = .ok (guardarArchivoBinario (tablaDeCodigos [0, 1, 1]) (textoCodificadoDe [0, 1, 1])) ∧
    (textoCodificadoDe [0, 1, 1]).length
        = (([0, 1, 1] : List Nat).map
            (fun c => ((buscar (tablaDeCodigos [0, 1, 1]) c).getD []).length)).sum ∧
    (guardarArchivoBinario (tablaDeCodigos [0, 1, 1]) (textoCodificadoDe [0, 1, 1])).drop 8
        = (tablaDeCodigos [0, 1, 1]).flatMap escribirEntrada
          ++ escribirTexto (textoCodificadoDe [0, 1, 1]).length (textoCodificadoDe [0, 1, 1]) ∧
    (guardarArchivoBinario (tablaDeCodigos [0, 1, 1]) (textoCodificadoDe [0, 1, 1])).length
        = 8 + 10 * (tablaDeCodigos [0, 1, 1]).length
          + ((textoCodificadoDe [0, 1, 1]).length + 7) / 8 :=
  ⟨by decide, contenedor_sin_campo_de_longitud [0, 1, 1] (by decide)⟩

/-- C9, counterexample: the input `00 01 01` is encoded in 3 bits, yet
`leerArchivoBinario` hands 8 bits to the walk, and the walk over the
compressor's own tree emits 8 symbols; for the input `41` the walk emits no
symbol at all. -/
theorem relleno_leido_como_datos :
    comprimirArchivo [0, 1, 1]
      = .ok [2, 0, 0, 0, 0, 0, 0, 0, 0, 1, 0, 0, 0, 0, 0, 0, 0, 0,
          1, 1, 1, 0, 0, 0, 0, 0, 0, 0, 3] ∧
    (textoCodificadoDe [0, 1, 1]).length = 3 ∧
    leerArchivoBinario descompresorNuevo
        [2, 0, 0, 0, 0, 0, 0, 0, 0, 1, 0, 0, 0, 0, 0, 0, 0, 0, 1, 1, 1, 0, 0, 0, 0, 0, 0, 0, 3]
      = .ok (DescompresorHuffman.mk (ArbolHuffman.mk .nulo [(0, [false]), (1, [true])]),
          [false, false, false, false, false, false, true, true]) ∧
    construirArbol (calcularFrecuencias [0, 1, 1])
      = .ok (.nodo 0 3 (nuevoNodo 0 1) (nuevoNodo 1 2)) ∧
    descomprimirArchivo
        (DescompresorHuffman.mk (ArbolHuffman.mk (.nodo 0 3 (nuevoNodo 0 1) (nuevoNodo 1 2)) []))
        [2, 0, 0, 0, 0, 0, 0, 0, 0, 1, 0, 0, 0, 0, 0, 0, 0, 0, 1, 1, 1, 0, 0, 0, 0, 0, 0, 0, 3]
      = .ok [0, 0, 0, 0, 0, 0, 1, 1] ∧
    comprimirArchivo [65] = .ok [1, 0, 0, 0, 0, 0, 0, 0, 65, 0, 0, 0, 0, 0, 0, 0, 0, 0] ∧
    descomprimirArchivo descompresorNuevo
        [1, 0, 0, 0, 0, 0, 0, 0, 65, 0, 0, 0, 0, 0, 0, 0, 0, 0] = .ok [] :=
  ⟨rfl, rfl, rfl, rfl, rfl, rfl, rfl⟩

/-- C9, amended: for every non-empty input of bytes whose codes have at most
64 bits, and every state of the decompressor, `leerArchivoBinario` returns all
the `8 * ⌈L / 8⌉` bits of the payload bytes (`L` is the encoded bit-length,
the sum of the code lengths of the input's bytes), and `descomprimirArchivo`
walks all of them from `arbol.raiz`: the 0-7 padding bits of the last byte are
walked like data, and no stored bit-length stops the walk after `L` bits. -/
theorem descomprimir_recorre_el_relleno (d : DescompresorHuffman) (entrada : List Nat)
    (hne : entrada ≠ []) (hb : ∀ x ∈ entrada, x < 256)
    (h64 : ∀ p ∈ tablaDeCodigos entrada, p.2.length ≤ 64) :
    ∃ c bits, comprimirArchivo entrada = .ok c ∧
      leerArchivoBinario d c
        = .ok (DescompresorHuffman.mk (ArbolHuffman.mk d.arbol.raiz (tablaDeCodigos entrada)),
            bits) ∧
      (textoCodificadoDe entrada).length
        = (entrada.map (fun x => ((buscar (tablaDeCodigos entrada) x).getD []).length)).sum ∧
      bits.length = 8 * (((textoCodificadoDe entrada).length + 7) / 8) ∧
      descomprimirArchivo d c = recorrer d.arbol.raiz d.arbol.raiz bits := by
  obtain ⟨h1, h2⟩ := comprimirArchivo_eq entrada hne
  obtain ⟨_, _, _, _, _, hnd, hk⟩ := tablaDeCodigos_spec entrada hne
  have hl := tablaDeCodigos_length_lt entrada hne hb
  have hle := leerArchivoBinario_guardar d (tablaDeCodigos entrada) (textoCodificadoDe entrada) hl
    (fun p hp => ⟨hb p.1 ((hk p.1).mp (List.mem_map_of_mem Prod.fst hp)), h64 p hp⟩)
  have e : (tablaDeCodigos entrada).foldl (fun m p => asignar m p.1 p.2) []
      = tablaDeCodigos entrada := by
    rw [foldl_asignar_nuevos _ [] (by simpa using hnd)]
    simp
  rw [e] at hle
  refine ⟨_, _, h1, hle, ?_, ?_, ?_⟩
  · rw [h2, length_flatMap_codigos]
  · rw [cadenas_length, escribirTexto_length _ _ (le_refl _)]
  · simp only [descomprimirArchivo, hle]

/-- C9, amended, instance: the input `00 01 01` read by a decompressor whose
tree is still null. -/
theorem descomprimir_recorre_el_relleno_witness :
    ([0, 1, 1] : List Nat) ≠ [] ∧ (∀ x ∈ ([0, 1, 1] : List Nat), x < 256) ∧
    (∀ p ∈ tablaDeCodigos [0, 1, 1], p.2.length ≤ 64) ∧
    ∃ c bits, comprimirArchivo [0, 1, 1] = .ok c ∧
      leerArchivoBinario descompresorNuevo c
        = .ok (DescompresorHuffman.mk
            (ArbolHuffman.mk descompresorNuevo.arbol.raiz (tablaDeCodigos [0, 1, 1])), bits) ∧
      (textoCodificadoDe [0, 1, 1]).length
        = (([0, 1, 1] : List Nat).map
            (fun x => ((buscar (tablaDeCodigos [0, 1, 1]) x).getD []).length)).sum ∧
      bits.length = 8 * (((textoCodificadoDe [0, 1, 1]).length + 7) / 8) ∧
      descomprimirArchivo descompresorNuevo c
        = recorrer descompresorNuevo.arbol.raiz descompresorNuevo.arbol.raiz bits :=
  ⟨by decide, by decide, by decide,
    descomprimir_recorre_el_relleno descompresorNuevo [0, 1, 1] (by decide) (by decide)
      (by decide)⟩


theorem leerTabla_paso (n : Nat) (par : Nat × List Bool) (resto : List Nat)
    (m : Mapa (List Bool)) :
    leerTabla (n + 1) (escribirEntrada par ++ resto) m
      = if par.2.length % 256 > 64 then .error .fueraDeRango
        else leerTabla n resto (asignar m (par.1 % 256)
          (((cadenaDeBitset 64 (deBytes (bytes64 (bitsetDeCadena 64 par.2)))).drop
            (64 - par.2.length % 256)).take (par.2.length % 256))) := by
  simp only [escribirEntrada, bytes64, List.cons_append, List.nil_append, leerTabla]
  rfl

theorem leerTabla_desborde (tabla : Mapa (List Bool)) : ∀ (resto : List Nat)
    (m : Mapa (List Bool)), (∃ p ∈ tabla, 64 < p.2.length % 256) →
    leerTabla tabla.length (tabla.flatMap escribirEntrada ++ resto) m = .error .fueraDeRango := by
  induction tabla with
  | nil => intro _ _ h; simp at h
  | cons p ps ih =>
    intro resto m h
    simp only [List.length_cons, List.flatMap_cons, List.append_assoc]
    rw [leerTabla_paso]
    by_cases hp : 64 < p.2.length % 256
    · rw [if_pos hp]
    · rw [if_neg hp]
      apply ih
      obtain ⟨q, hq, hq2⟩ := h
      simp only [List.mem_cons] at hq
      rcases hq with e | e
      · subst e; exact absurd hq2 hp
      · exact ⟨q, e, hq2⟩

set_option maxRecDepth 100000 in
/-- C10, counterexample: the 80-symbol table `tablaProfunda` (counts 0 and
Fibonacci numbers, all within `int`) gives symbol `0x0d` a code of 65 bits;
`generarCodigos` returns it and `guardarArchivoBinario` writes for it a record
with length byte 65 and an 8-byte field holding 64 bits, with no failure. -/
theorem codigo_largo_sin_fallo :
    (buscar (codigosDeTabla tablaProfunda) 13).map
        (fun cod => (cod.length, escribirEntrada (13, cod)))
      = some (65, [13, 65, 235, 255, 231, 255, 255, 255, 255, 255]) := by
  decide!

/-- C10, amended: no overflow is reported when the table is written.  For
every code table, also one in which some code is longer than 64 bits,
`guardarArchivoBinario` writes a complete container (entry count, one 10-byte
record per entry, payload); the 64-bit field of a record holds only the first
64 bits of the code, so codes that agree on their first 64 bits and on their
length modulo 256 are written identically.  The overflow surfaces only on
reading: if some stored length byte exceeds 64, `leerArchivoBinario` on that
container ends with `std::out_of_range`. -/
theorem desborde_sin_detectar (d : DescompresorHuffman) (tabla : Mapa (List Bool))
    (texto : List Bool) (hl : tabla.length < 2 ^ 64)
    (hlargo : ∃ p ∈ tabla, 64 < p.2.length % 256) :
    (guardarArchivoBinario tabla texto).length
        = 8 + 10 * tabla.length + (texto.length + 7) / 8 ∧
    (∀ p q : Nat × List Bool, p.1 = q.1 → p.2.take 64 = q.2.take 64 →
        p.2.length % 256 = q.2.length % 256 → escribirEntrada p = escribirEntrada q) ∧
    leerArchivoBinario d (guardarArchivoBinario tabla texto) = .error .fueraDeRango := by
  refine ⟨guardarArchivoBinario_length _ _, ?_, ?_⟩
  · intro p q h1 h2 h3
    simp only [escribirEntrada, bitsetDeCadena, h1, h2, h3]
  · have hmod : tabla.length % 2 ^ 64 = tabla.length := Nat.mod_eq_of_lt hl
    have e1 : (guardarArchivoBinario tabla texto).take 8 = bytes64 tabla.length := by
      simp only [guardarArchivoBinario, hmod, List.append_assoc]
      exact List.take_left' (bytes64_length _)
    have e2 : (guardarArchivoBinario tabla texto).drop 8
        = tabla.flatMap escribirEntrada ++ escribirTexto texto.length texto := by
      simp only [guardarArchivoBinario, hmod, List.append_assoc]
      exact List.drop_left' (bytes64_length _)
    have e3 : ¬ (guardarArchivoBinario tabla texto).length < 8 := by
      simp only [guardarArchivoBinario, List.length_append, bytes64_length]
      omega
    simp only [leerArchivoBinario, if_neg e3, e1, e2, deBytes_bytes64 _ hl,
      leerTabla_desborde tabla _ [] hlargo]

/-- C10, amended, instance: a one-entry table whose code has 65 zero bits. -/
theorem desborde_sin_detectar_witness :
    ([(7, List.replicate 65 false)] : Mapa (List Bool)).length < 2 ^ 64 ∧
    (∃ p ∈ ([(7, List.replicate 65 false)] : Mapa (List Bool)), 64 < p.2.length % 256) ∧
    (guardarArchivoBinario [(7, List.replicate 65 false)] []).length
        = 8 + 10 * ([(7, List.replicate 65 false)] : Mapa (List Bool)).length
          + (([] : List Bool).length + 7) / 8 ∧
    (∀ p q : Nat × List Bool, p.1 = q.1 → p.2.take 64 = q.2.take 64 →
        p.2.length % 256 = q.2.length % 256 → escribirEntrada p = escribirEntrada q) ∧
    leerArchivoBinario descompresorNuevo (guardarArchivoBinario [(7, List.replicate 65 false)] [])
      = .error .fueraDeRango :=
  ⟨by decide, ⟨(7, List.replicate 65 false), by decide, by decide⟩,
    desborde_sin_detectar descompresorNuevo [(7, List.replicate 65 false)] [] (by decide)
      ⟨(7, List.replicate 65 false), by decide, by decide⟩⟩

/-- C1, the code as written: the round trip fails.  The one-byte input `41`
is compressed to a container with an empty payload, and `descomprimirArchivo`
writes an empty output whatever the state of the decompressor; the input
`00 01` is compressed to a container that a new decompressor, whose tree was
never built, cannot walk (null dereference), and that the walk over the
compressor's own tree decodes as `00 00 00 00 00 00 00 01`; the empty input
has no defined result (`top()` of an empty queue). -/
theorem ida_y_vuelta_falla :
    comprimirArchivo [65] = .ok [1, 0, 0, 0, 0, 0, 0, 0, 65, 0, 0, 0, 0, 0, 0, 0, 0, 0] ∧
    (∀ d : DescompresorHuffman,
      descomprimirArchivo d [1, 0, 0, 0, 0, 0, 0, 0, 65, 0, 0, 0, 0, 0, 0, 0, 0, 0] = .ok []) ∧
    comprimirArchivo [0, 1]
      = .ok [2, 0, 0, 0, 0, 0, 0, 0, 0, 1, 0, 0, 0, 0, 0, 0, 0, 0,
          1, 1, 1, 0, 0, 0, 0, 0, 0, 0, 1] ∧
    descomprimirArchivo descompresorNuevo
        [2, 0, 0, 0, 0, 0, 0, 0, 0, 1, 0, 0, 0, 0, 0, 0, 0, 0, 1, 1, 1, 0, 0, 0, 0, 0, 0, 0, 1]
      = .error .indefinido ∧
    construirArbol (calcularFrecuencias [0, 1])
      = .ok (.nodo 0 2 (nuevoNodo 0 1) (nuevoNodo 1 1)) ∧
    descomprimirArchivo
        (DescompresorHuffman.mk (ArbolHuffman.mk (.nodo 0 2 (nuevoNodo 0 1) (nuevoNodo 1 1)) []))
        [2, 0, 0, 0, 0, 0, 0, 0, 0, 1, 0, 0, 0, 0, 0, 0, 0, 0, 1, 1, 1, 0, 0, 0, 0, 0, 0, 0, 1]
      = .ok [0, 0, 0, 0, 0, 0, 0, 1] ∧
    comprimirArchivo [] = .error .indefinido :=
  ⟨rfl, fun d => by
      have h : leerArchivoBinario d [1, 0, 0, 0, 0, 0, 0, 0, 65, 0, 0, 0, 0, 0, 0, 0, 0, 0]
          = .ok (DescompresorHuffman.mk (ArbolHuffman.mk d.arbol.raiz [(65, [])]), []) := rfl
      simp only [descomprimirArchivo, h, recorrer],
    rfl, rfl, rfl, rfl, rfl⟩

/-- C5, the code as written: the two-bit sequence `01` (the encoding of the
input `00 01`) is written as the payload byte `0x01`, whose expansion is six
zero bits followed by `01`; it is not `01` followed by zero bits, which would
be the byte `0x40`. -/
theorem ultimo_byte_alineado_a_la_derecha :
    textoCodificadoDe [0, 1] = [false, true] ∧
    escribirTexto 2 [false, true] = [1] ∧
    guardarArchivoBinario (tablaDeCodigos [0, 1]) (textoCodificadoDe [0, 1])
      = [2, 0, 0, 0, 0, 0, 0, 0, 0, 1, 0, 0, 0, 0, 0, 0, 0, 0, 1, 1, 1, 0, 0, 0, 0, 0, 0, 0] ++ [1] ∧
    cadenaDeBitset 8 1 = [false, false, false, false, false, false, false, true] ∧
    (∀ k : Nat, (escribirTexto 2 [false, true]).flatMap (cadenaDeBitset 8)
      ≠ [false, true] ++ List.replicate k false) ∧
    bitsANat ([false, true] ++ List.replicate 6 false) = 64 := by
  refine ⟨rfl, rfl, rfl, rfl, ?_, rfl⟩
  intro k h
  have h2 : (escribirTexto 2 [false, true]).flatMap (cadenaDeBitset 8)
      = [false, false, false, false, false, false, false, true] := rfl
  rw [h2] at h
  injection h with _ h3
  injection h3 with h4 _
  exact absurd h4 (by decide)

/-- C7, the code as written: `leerArchivoBinario` never assigns `arbol.raiz`;
whenever it succeeds, the root is the one the decompressor had before the
call.  For the container of the input `00 01` read by a new decompressor the
table holds the codes `0` and `1`, the root is still null, and walking the
stored code `0` from it is a null dereference. -/
theorem leerArchivoBinario_no_reconstruye_el_arbol :
    (∀ (d : DescompresorHuffman) (archivo : List Nat),
      (match leerArchivoBinario d archivo with
        | .ok r => r.1.arbol.raiz
        | .error _ => d.arbol.raiz) = d.arbol.raiz) ∧
    leerArchivoBinario descompresorNuevo
        [2, 0, 0, 0, 0, 0, 0, 0, 0, 1, 0, 0, 0, 0, 0, 0, 0, 0, 1, 1, 1, 0, 0, 0, 0, 0, 0, 0, 1]
      = .ok (DescompresorHuffman.mk (ArbolHuffman.mk .nulo [(0, [false]), (1, [true])]),
          [false, false, false, false, false, false, false, true]) ∧
    recorrer .nulo .nulo [false] = .error .indefinido := by
  refine ⟨?_, rfl, rfl⟩
  intro d archivo
  unfold leerArchivoBinario
  by_cases h : archivo.length < 8
  · simp only [if_pos h]
  · simp only [if_neg h]
    cases leerTabla (deBytes (List.take 8 archivo)) (List.drop 8 archivo) [] <;> rfl

/-! ## The remaining entry points -/

/-- C12, the code as written: for the empty input `calcularFrecuencias` yields
the empty table, but `construirArbol` on the empty table has no defined result
(`top()` of an empty queue is assigned to `raiz`), and so has
`comprimirArchivo`: no container is produced. -/
theorem entrada_vacia_indefinida :
    calcularFrecuencias [] = [] ∧
    encolarHojas [] = [] ∧
    construirArbol [] = .error .indefinido ∧
    comprimirArchivo [] = .error .indefinido :=
  ⟨rfl, rfl, rfl, rfl⟩

/-- C13, counterexample: the table `{0x00: 256, 0x01: 256}` iterated as
`00, 01` gives the tree with leaf `0x00` on the left, iterated as `01, 00` the
tree with leaf `0x01` on the left (code `0`) and `0x00` on the right (code `1`). -/
theorem arbol_depende_del_orden :
    ([(0, 256), (1, 256)] : Mapa Int).Perm [(1, 256), (0, 256)] ∧
    construirArbol [(0, 256), (1, 256)]
      = .ok (.nodo 0 512 (nuevoNodo 0 256) (nuevoNodo 1 256)) ∧
    construirArbol [(1, 256), (0, 256)]
      = .ok (.nodo 0 512 (nuevoNodo 1 256) (nuevoNodo 0 256)) ∧
    codigosDeTabla [(1, 256), (0, 256)] = [(1, [false]), (0, [true])] :=
  ⟨List.Perm.swap _ _ _, rfl, rfl, rfl⟩

/-- C14, the code as written: with fewer than five arguments `main` returns 1,
but with a mode that is neither `-c` nor `-d` it prints the message and
returns 0, whatever the files are; it also returns 0 when the decompressor
cannot open its input file. -/
theorem main_modo_desconocido_devuelve_cero :
    (∀ archivos : String → Option (List Nat),
      main ["huffman", "-x", "entrada.txt", "-o", "salida.huf"] archivos = .ok 0) ∧
    (∀ archivos : String → Option (List Nat),
      main ["huffman", "-c", "entrada.txt"] archivos = .ok 1) ∧
    main ["huffman", "-d", "entrada.huf", "-o", "salida.txt"] (fun _ => none) = .ok 0 := by
  refine ⟨?_, ?_, ?_⟩
  · intro archivos
    simp [main]
  · intro archivos
    simp [main]
  · simp [main]

/-- C15. One entry per symbol: for every non-empty frequency table (distinct
keys, any iteration order) `construirArbol` ends with a single tree whose
leaves are exactly the entries of the table, each symbol once with its own
count as weight, and `generarCodigos(raiz, "")` then yields a code table with
exactly one entry for every symbol of the table and for no other symbol. -/
theorem una_entrada_por_simbolo (frecuencias : Mapa Int) (hne : frecuencias ≠ [])
    (hnd : (frecuencias.map Prod.fst).Nodup) :
    ∃ raiz, construirArbol frecuencias = .ok raiz ∧
      (hojas raiz).Perm frecuencias ∧
      ((generarCodigos raiz [] []).map Prod.fst).Nodup ∧
      ((generarCodigos raiz [] []).map Prod.fst).Perm (frecuencias.map Prod.fst) ∧
      ∀ c, c ∈ (generarCodigos raiz [] []).map Prod.fst ↔ c ∈ frecuencias.map Prod.fst := by
  obtain ⟨r, hr, _, hp⟩ := construirArbol_estructura frecuencias hne
  have hnd' : ((hojas r).map Prod.fst).Nodup := (hp.map Prod.fst).nodup_iff.mpr hnd
  refine ⟨r, hr, hp, ?_, ?_, ?_⟩
  · rw [generarCodigos_eq_caminos r hnd', caminos_map_fst]; exact hnd'
  · rw [generarCodigos_eq_caminos r hnd', caminos_map_fst]; exact hp.map Prod.fst
  · intro c
    rw [generarCodigos_eq_caminos r hnd', caminos_map_fst]
    exact (hp.map Prod.fst).mem_iff

/-- C15, instance: the table `a:5 b:9 c:12`. -/
theorem una_entrada_por_simbolo_witness :
    ([(97, 5), (98, 9), (99, 12)] : Mapa Int) ≠ [] ∧
    (([(97, 5), (98, 9), (99, 12)] : Mapa Int).map Prod.fst).Nodup ∧
    ∃ raiz, construirArbol [(97, 5), (98, 9), (99, 12)] = .ok raiz ∧
      (hojas raiz).Perm [(97, 5), (98, 9), (99, 12)] ∧
      ((generarCodigos raiz [] []).map Prod.fst).Nodup ∧
      ((generarCodigos raiz [] []).map Prod.fst).Perm
        (([(97, 5), (98, 9), (99, 12)] : Mapa Int).map Prod.fst) ∧
      ∀ c, c ∈ (generarCodigos raiz [] []).map Prod.fst
        ↔ c ∈ ([(97, 5), (98, 9), (99, 12)] : Mapa Int).map Prod.fst :=
  ⟨by decide, by decide, una_entrada_por_simbolo _ (by decide) (by decide)⟩

theorem subarboles_llenos (t : NodoHuffman) :
    esLleno t = true → ∀ n ∈ subarboles t, esLleno n = true := by
  induction t with
  | nulo => intro h; simp [esLleno] at h
  | nodo c f i d ihi ihd =>
    intro hb n hn
    simp only [subarboles, List.mem_cons, List.mem_append] at hn
    rcases hn with e | hn
    · rw [e]; exact hb
    · simp only [esLleno, Bool.or_eq_true, Bool.and_eq_true, esNulo_iff] at hb
      rcases hb with ⟨e1, e2⟩ | ⟨b1, b2⟩
      · subst e1; subst e2
        simp [subarboles] at hn
      · rcases hn with h | h
        · exact ihi b1 n h
        · exact ihd b2 n h

theorem subarboles_pesosExactos (t : NodoHuffman) :
    esLleno t = true → pesosExactos t = true →
      ∀ n ∈ subarboles t, pesosExactos n = true := by
  induction t with
  | nulo => intro h; simp [esLleno] at h
  | nodo c f i d ihi ihd =>
    intro hb hw n hn
    simp only [subarboles, List.mem_cons, List.mem_append] at hn
    rcases hn with e | hn
    · rw [e]; exact hw
    · simp only [esLleno, Bool.or_eq_true, Bool.and_eq_true, esNulo_iff] at hb
      simp only [pesosExactos, Bool.or_eq_true, Bool.and_eq_true, esNulo_iff,
        decide_eq_true_eq] at hw
      rcases hb with ⟨e1, e2⟩ | ⟨b1, b2⟩
      · subst e1; subst e2
        simp [subarboles] at hn
      · rcases hw with ⟨e1, _⟩ | ⟨⟨w1, w2⟩, _⟩
        · exact absurd e1 (esLleno_ne_nulo i b1)
        · rcases hn with h | h
          · exact ihi b1 w1 n h
          · exact ihd b2 w2 n h

theorem hojas_subarbol (t : NodoHuffman) :
    ∀ n ∈ subarboles t, ∀ p ∈ hojas n, p ∈ hojas t := by
  induction t with
  | nulo => intro n hn; simp [subarboles] at hn
  | nodo c f i d ihi ihd =>
    intro n hn p hp
    simp only [subarboles, List.mem_cons, List.mem_append] at hn
    rcases hn with e | hn
    · rw [e] at hp; exact hp
    · by_cases hh : esHoja (.nodo c f i d) = true
      · simp only [esHoja, Bool.and_eq_true, esNulo_iff] at hh
        obtain ⟨e1, e2⟩ := hh
        subst e1; subst e2
        simp [subarboles] at hn
      · have hh' : esHoja (.nodo c f i d) = false := by simpa using hh
        rw [hojas_nodo c f i d hh', List.mem_append]
        rcases hn with h | h
        · exact Or.inl (ihi n h p hp)
        · exact Or.inr (ihd n h p hp)

/-- C16. Weight invariant: for every non-empty frequency table whose counts
are small enough not to overflow `int` (their absolute values add up to less
than `2^31`) the tree built by `construirArbol` has the entries of the table
at its leaves, every node of it carries as `frecuencia` the sum of the counts
of the leaves below it (which are entries of the table), every node with
children carries the sum of the `frecuencia` of its two children, and the root
carries the sum of all counts of the table. -/
theorem invariante_de_pesos (frecuencias : Mapa Int) (hne : frecuencias ≠ [])
    (hs : sinDesborde frecuencias) :
    ∃ raiz, construirArbol frecuencias = .ok raiz ∧
      (hojas raiz).Perm frecuencias ∧
      (∀ n ∈ subarboles raiz, frecuenciaDe n = sumaHojas n ∧ ∀ p ∈ hojas n, p ∈ frecuencias) ∧
      (∀ c f i d, .nodo c f i d ∈ subarboles raiz → esHoja (.nodo c f i d) = false →
        i ≠ .nulo ∧ d ≠ .nulo ∧ f = frecuenciaDe i + frecuenciaDe d) ∧
      frecuenciaDe raiz = (frecuencias.map Prod.snd).sum := by
  obtain ⟨r, hr, hb, hw, hp, _⟩ := construirArbol_cota frecuencias hne hs
  have hsub := subarboles_llenos r hb
  have hsubw := subarboles_pesosExactos r hb hw
  refine ⟨r, hr, hp, ?_, ?_, ?_⟩
  · intro n hn
    exact ⟨sumaHojas_of_pesosExactos n (hsub n hn) (hsubw n hn),
      fun p hpn => hp.subset (hojas_subarbol r n hn p hpn)⟩
  · intro c f i d hn hnh
    have hbn := hsub _ hn
    have hwn := hsubw _ hn
    simp only [esLleno, Bool.or_eq_true, Bool.and_eq_true, esNulo_iff] at hbn
    simp only [pesosExactos, Bool.or_eq_true, Bool.and_eq_true, esNulo_iff,
      decide_eq_true_eq] at hwn
    rcases hbn with ⟨e1, e2⟩ | ⟨b1, b2⟩
    · subst e1; subst e2
      simp [esHoja, esNulo] at hnh
    · rcases hwn with ⟨e1, _⟩ | ⟨_, e⟩
      · exact absurd e1 (esLleno_ne_nulo i b1)
      · exact ⟨esLleno_ne_nulo i b1, esLleno_ne_nulo d b2, e⟩
  · rw [sumaHojas_of_pesosExactos r hb hw, sumaHojas]
    exact (hp.map Prod.snd).sum_eq

/-- C16, instance: the table `a:5 b:9 c:12`. -/
theorem invariante_de_pesos_witness :
    ([(97, 5), (98, 9), (99, 12)] : Mapa Int) ≠ [] ∧
    sinDesborde [(97, 5), (98, 9), (99, 12)] ∧
    ∃ raiz, construirArbol [(97, 5), (98, 9), (99, 12)] = .ok raiz ∧
      (hojas raiz).Perm [(97, 5), (98, 9), (99, 12)] ∧
      (∀ n ∈ subarboles raiz, frecuenciaDe n = sumaHojas n ∧
        ∀ p ∈ hojas n, p ∈ ([(97, 5), (98, 9), (99, 12)] : Mapa Int)) ∧
      (∀ c f i d, .nodo c f i d ∈ subarboles raiz → esHoja (.nodo c f i d) = false →
        i ≠ .nulo ∧ d ≠ .nulo ∧ f = frecuenciaDe i + frecuenciaDe d) ∧
      frecuenciaDe raiz = (([(97, 5), (98, 9), (99, 12)] : Mapa Int).map Prod.snd).sum :=
  ⟨by decide, by decide, invariante_de_pesos _ (by decide) (by decide)⟩

/-! ## Packing the payload -/

theorem escribirTexto_nil (fuel : Nat) : escribirTexto fuel [] = [] := by
  cases fuel <;> simp [escribirTexto]

theorem expandir_escribirTexto (fuel : Nat) : ∀ B : List Bool, B.length ≤ fuel →
    (escribirTexto fuel B).flatMap (cadenaDeBitset 8)
      = if B.length % 8 = 0 then B
        else B.take (8 * (B.length / 8)) ++ List.replicate (8 - B.length % 8) false
          ++ B.drop (8 * (B.length / 8)) := by
  induction fuel with
  | zero =>
    intro B h
    have : B = [] := List.length_eq_zero.mp (by omega)
    subst this
    simp [escribirTexto]
  | succ n ih =>
    intro B h
    by_cases hB : B.length > 0
    · simp only [escribirTexto, if_pos hB, List.flatMap_cons]
      by_cases h8 : 8 ≤ B.length
      · have hc : (B.take 8).length = 8 := by simp; omega
        have e1 : cadenaDeBitset 8 (bitsetDeCadena 8 (B.take 8)) = B.take 8 := by
          unfold bitsetDeCadena
          rw [List.take_take]
          have := cadenaDeBitset_bitsANat (B.take 8) 0
          rw [hc] at this
          simpa using this
        have hl : (B.drop 8).length = B.length - 8 := by simp
        rw [e1, ih (B.drop 8) (by rw [hl]; omega), hl]
        have m1 : (B.length - 8) % 8 = B.length % 8 := by omega
        have m2 : 8 * ((B.length - 8) / 8) + 8 = 8 * (B.length / 8) := by omega
        rw [m1]
        by_cases hr : B.length % 8 = 0
        · simp only [if_pos hr, List.take_append_drop]
        · simp only [if_neg hr]
          have t1 : B.take (8 * (B.length / 8))
              = B.take 8 ++ (B.drop 8).take (8 * ((B.length - 8) / 8)) := by
            rw [← m2, Nat.add_comm, List.take_add]
          have t2 : B.drop (8 * (B.length / 8))
              = (B.drop 8).drop (8 * ((B.length - 8) / 8)) := by
            rw [← m2, List.drop_drop, Nat.add_comm]
          rw [t1, t2]
          simp only [List.append_assoc]
      · have hlt : B.length < 8 := by omega
        have ht : B.take 8 = B := List.take_of_length_le (by omega)
        have hd : B.drop 8 = [] := List.drop_eq_nil_of_le (by omega)
        have e1 : cadenaDeBitset 8 (bitsetDeCadena 8 B)
            = List.replicate (8 - B.length) false ++ B := by
          unfold bitsetDeCadena
          rw [ht]
          have := cadenaDeBitset_bitsANat B (8 - B.length)
          have e : 8 - B.length + B.length = 8 := by omega
          rw [e] at this
          exact this
        rw [ht, hd, escribirTexto_nil, e1]
        have hr : ¬ B.length % 8 = 0 := by omega
        have hq : B.length / 8 = 0 := by omega
        have hm : B.length % 8 = B.length := by omega
        rw [if_neg hr, hq, hm]
        simp only [Nat.mul_zero, List.take_zero, List.drop_zero,
          List.flatMap_nil, List.append_nil, List.nil_append]
    · have : B = [] := List.length_eq_zero.mp (by omega)
      subst this
      simp [escribirTexto]

/-- C18. Pack/unpack characterisation: for every bit string `B`, expanding
the payload bytes written by `guardarArchivoBinario` the way
`leerArchivoBinario` does (every byte to 8 bits, most significant first)
returns `B` unchanged when the length of `B` is a multiple of 8, and otherwise,
with `k` full chunks and `r = |B| mod 8` remaining bits, the first `8k` bits of
`B`, then `8 - r` zero bits, then the last `r` bits of `B`. -/
theorem empaquetar_y_expandir (B : List Bool) :
    (escribirTexto B.length B).flatMap (cadenaDeBitset 8)
      = if B.length % 8 = 0 then B
        else B.take (8 * (B.length / 8)) ++ List.replicate (8 - B.length % 8) false
          ++ B.drop (8 * (B.length / 8)) :=
  expandir_escribirTexto B.length B (le_refl _)

/-! ## The decoder's walk -/

theorem recorrer_nil (raiz t : NodoHuffman) : recorrer raiz t [] = .ok [] := by
  cases t <;> rfl

/-- One iteration of the loop of `descomprimirArchivo` from a node whose
chosen child is not null. -/
theorem recorrer_paso (raiz : NodoHuffman) (c : Nat) (f : Int) (i d : NodoHuffman)
    (bit : Bool) (resto : List Bool) (sig : NodoHuffman)
    (hsig : sig = if bit = false then i else d) (hne : sig ≠ .nulo) :
    recorrer raiz (.nodo c f i d) (bit :: resto)
      = if esHoja sig = true then
          (match recorrer raiz raiz resto with
            | .error e => .error e
            | .ok s => .ok (caracterDe sig :: s))
        else recorrer raiz sig resto := by
  cases hs : sig with
  | nulo => exact absurd hs hne
  | nodo c2 f2 i2 d2 =>
    rw [hs] at hsig
    simp only [recorrer, ← hsig, caracterDe]

theorem hijos_llenos (c : Nat) (f : Int) (i d : NodoHuffman)
    (hb : esLleno (.nodo c f i d) = true) (hnh : esHoja (.nodo c f i d) = false) :
    esLleno i = true ∧ esLleno d = true := by
  simp only [esLleno, Bool.or_eq_true, Bool.and_eq_true, esNulo_iff] at hb
  rcases hb with ⟨e1, e2⟩ | ⟨b1, b2⟩
  · subst e1; subst e2
    simp [esHoja, esNulo] at hnh
  · exact ⟨b1, b2⟩

/-- Over a well-formed tree whose root has children the walk never meets a
null pointer. -/
theorem recorrer_total (raiz : NodoHuffman) (hb : esLleno raiz = true)
    (hnh : esHoja raiz = false) : ∀ (bits : List Bool) (t : NodoHuffman),
    esLleno t = true → esHoja t = false → ∃ salida, recorrer raiz t bits = .ok salida := by
  intro bits
  induction bits with
  | nil => intro t _ _; exact ⟨[], recorrer_nil raiz t⟩
  | cons bit resto ih =>
    intro t ht hth
    cases t with
    | nulo => simp [esLleno] at ht
    | nodo c f i d =>
      obtain ⟨bi, bd⟩ := hijos_llenos c f i d ht hth
      have hbs : esLleno (if bit = false then i else d) = true := by
        split
        · exact bi
        · exact bd
      have key : ∀ sig, sig = (if bit = false then i else d) → esLleno sig = true →
          ∃ salida, recorrer raiz (.nodo c f i d) (bit :: resto) = .ok salida := by
        intro sig hsig hbsig
        rw [recorrer_paso raiz c f i d bit resto sig hsig (esLleno_ne_nulo _ hbsig)]
        by_cases hh : esHoja sig = true
        · rw [if_pos hh]
          obtain ⟨s, hs⟩ := ih raiz hb hnh
          rw [hs]
          exact ⟨_, rfl⟩
        · rw [if_neg hh]
          exact ih _ hbsig (by simpa using hh)
      exact key _ rfl hbs

theorem esHoja_false_of_hojas (t : NodoHuffman) (hb : esLleno t = true)
    (h : 2 ≤ (hojas t).length) : esHoja t = false := by
  cases t with
  | nulo => simp [esLleno] at hb
  | nodo c f i d =>
    by_contra hh
    have hh' : esHoja (.nodo c f i d) = true := by simpa using hh
    simp only [hojas, hh', if_true, List.length_singleton] at h
    omega

/-- C19. Walk safety: the tree built by `construirArbol` from a table with at
least two entries is a full binary tree (every node has no child or two
children), and the decoder's walk started at its root never steps to a null
pointer, whatever the bit string; over a tree that is a single leaf (the tree
of a one-entry table) the first step of the walk, on any bit, moves to a null
child. -/
theorem recorrido_seguro (frecuencias : Mapa Int) (h2 : 2 ≤ frecuencias.length) :
    ∃ raiz, construirArbol frecuencias = .ok raiz ∧
      esLleno raiz = true ∧
      (∀ c f i d, .nodo c f i d ∈ subarboles raiz →
        (i = .nulo ∧ d = .nulo) ∨ (i ≠ .nulo ∧ d ≠ .nulo)) ∧
      (∀ bits : List Bool, ∃ salida, recorrer raiz raiz bits = .ok salida) ∧
      (∀ (c : Nat) (f : Int) (bit : Bool) (resto : List Bool),
        construirArbol [(c, f)] = .ok (nuevoNodo c f) ∧
        recorrer (nuevoNodo c f) (nuevoNodo c f) (bit :: resto) = .error .indefinido) := by
  have hne : frecuencias ≠ [] := by
    intro e; subst e; simp at h2
  obtain ⟨r, hr, hb, hp⟩ := construirArbol_estructura frecuencias hne
  have hnh : esHoja r = false := esHoja_false_of_hojas r hb (by rw [hp.length_eq]; exact h2)
  refine ⟨r, hr, hb, ?_, ?_, ?_⟩
  · intro c f i d hn
    have hbn := subarboles_llenos r hb _ hn
    simp only [esLleno, Bool.or_eq_true, Bool.and_eq_true, esNulo_iff] at hbn
    rcases hbn with h | ⟨b1, b2⟩
    · exact Or.inl h
    · exact Or.inr ⟨esLleno_ne_nulo i b1, esLleno_ne_nulo d b2⟩
  · intro bits
    exact recorrer_total r hb hnh bits r hb hnh
  · intro c f bit resto
    refine ⟨construirArbol_singleton c f, ?_⟩
    cases bit <;> rfl

/-- C19, instance: the table `{0x00: 256, 0x01: 256}`. -/
theorem recorrido_seguro_witness :
    2 ≤ ([(0, 256), (1, 256)] : Mapa Int).length ∧
    ∃ raiz, construirArbol [(0, 256), (1, 256)] = .ok raiz ∧
      esLleno raiz = true ∧
      (∀ c f i d, .nodo c f i d ∈ subarboles raiz →
        (i = .nulo ∧ d = .nulo) ∨ (i ≠ .nulo ∧ d ≠ .nulo)) ∧
      (∀ bits : List Bool, ∃ salida, recorrer raiz raiz bits = .ok salida) ∧
      (∀ (c : Nat) (f : Int) (bit : Bool) (resto : List Bool),
        construirArbol [(c, f)] = .ok (nuevoNodo c f) ∧
        recorrer (nuevoNodo c f) (nuevoNodo c f) (bit :: resto) = .error .indefinido) :=
  ⟨by decide, recorrido_seguro _ (by decide)⟩

theorem buscar_mem {V : Type} (m : Mapa V) (c : Nat) (v : V) (h : buscar m c = some v) :
    (c, v) ∈ m := by
  induction m with
  | nil => simp [buscar] at h
  | cons p ps ih =>
    obtain ⟨k, w⟩ := p
    simp only [buscar] at h
    by_cases hk : k = c
    · simp only [if_pos hk, Option.some.injEq] at h
      simp [hk, h]
    · simp only [if_neg hk] at h
      exact List.mem_cons_of_mem _ (ih h)

theorem caminos_hoja (t : NodoHuffman) (q : List Bool) (h : esHoja t = true) :
    caminos t q = [(caracterDe t, q)] := by
  cases t with
  | nulo => simp [esHoja] at h
  | nodo c f i d => simp only [caminos, h, if_true, caracterDe]

/-- Walking the path of a leaf from an inner node emits the symbol of the leaf
and resumes at the root. -/
theorem recorrer_camino (raiz : NodoHuffman) : ∀ t : NodoHuffman,
    esLleno t = true → esHoja t = false →
    ∀ (pre : List Bool) (c : Nat) (p : List Bool), (c, p) ∈ caminos t pre →
    ∃ cod, p = pre ++ cod ∧ ∀ resto : List Bool,
      recorrer raiz t (cod ++ resto)
        = (match recorrer raiz raiz resto with
          | .error e => .error e
          | .ok s => .ok (c :: s)) := by
  intro t
  induction t with
  | nulo => intro h; simp [esLleno] at h
  | nodo c0 f i d ihi ihd =>
    intro hb hnh pre c p hmem
    obtain ⟨bi, bd⟩ := hijos_llenos c0 f i d hb hnh
    simp only [caminos, hnh, Bool.false_eq_true, if_false, List.mem_append] at hmem
    rcases hmem with hm | hm
    · by_cases hl : esHoja i = true
      · rw [caminos_hoja i _ hl] at hm
        simp only [List.mem_singleton, Prod.mk.injEq] at hm
        refine ⟨[false], hm.2, fun resto => ?_⟩
        rw [List.singleton_append,
          recorrer_paso raiz c0 f i d false resto i (by simp) (esLleno_ne_nulo i bi),
          if_pos hl, hm.1]
      · obtain ⟨cod, h1, h2⟩ := ihi bi (by simpa using hl) _ c p hm
        refine ⟨false :: cod, by simp [h1], fun resto => ?_⟩
        rw [List.cons_append,
          recorrer_paso raiz c0 f i d false _ i (by simp) (esLleno_ne_nulo i bi),
          if_neg hl, h2]
    · by_cases hl : esHoja d = true
      · rw [caminos_hoja d _ hl] at hm
        simp only [List.mem_singleton, Prod.mk.injEq] at hm
        refine ⟨[true], hm.2, fun resto => ?_⟩
        rw [List.singleton_append,
          recorrer_paso raiz c0 f i d true resto d (by simp) (esLleno_ne_nulo d bd),
          if_pos hl, hm.1]
      · obtain ⟨cod, h1, h2⟩ := ihd bd (by simpa using hl) _ c p hm
        refine ⟨true :: cod, by simp [h1], fun resto => ?_⟩
        rw [List.cons_append,
          recorrer_paso raiz c0 f i d true _ d (by simp) (esLleno_ne_nulo d bd),
          if_neg hl, h2]

theorem recorrer_codificado (raiz : NodoHuffman) (hb : esLleno raiz = true)
    (hnh : esHoja raiz = false) : ∀ l : List Nat,
    (∀ x ∈ l, x ∈ (caminos raiz []).map Prod.fst) →
    recorrer raiz raiz (l.flatMap (fun c => (buscar (caminos raiz []) c).getD [])) = .ok l := by
  intro l
  induction l with
  | nil => intro _; exact recorrer_nil raiz raiz
  | cons x xs ih =>
    intro h
    obtain ⟨v, hv⟩ := buscar_isSome_of_mem (caminos raiz []) x (h x (by simp))
    obtain ⟨cod, h1, h2⟩ := recorrer_camino raiz raiz hb hnh [] x v (buscar_mem _ _ _ hv)
    simp only [List.nil_append] at h1
    subst h1
    simp only [List.flatMap_cons, hv, Option.getD_some]
    rw [h2, ih (fun y hy => h y (by simp [hy]))]

theorem two_le_length_of_ne {α : Type} (l : List α) (a b : α) (ha : a ∈ l) (hb : b ∈ l)
    (hab : a ≠ b) : 2 ≤ l.length := by
  match l, ha, hb with
  | [x], ha, hb =>
    simp only [List.mem_singleton] at ha hb
    exact absurd (ha.trans hb.symm) hab
  | _ :: _ :: _, _, _ => simp

/-- C17. Tree-level round trip: for every byte sequence with at least two
distinct byte values, the decoder's walk over the compressor's own tree on the
unpadded concatenation of the codes of the bytes (the bit sequence
`textoCodificado` of `comprimirArchivo`) emits exactly the sequence. -/
theorem ida_y_vuelta_sobre_el_arbol (entrada : List Nat)
    (h : ∃ a ∈ entrada, ∃ b ∈ entrada, a ≠ b) :
    ∃ raiz, construirArbol (calcularFrecuencias entrada) = .ok raiz ∧
      textoCodificadoDe entrada
        = entrada.flatMap (fun c => (buscar (generarCodigos raiz [] []) c).getD []) ∧
      recorrer raiz raiz (textoCodificadoDe entrada) = .ok entrada := by
  obtain ⟨a, ha, b, hb, hab⟩ := h
  have hne : entrada ≠ [] := by
    intro e; subst e; simp at ha
  obtain ⟨r, hr, hbf, hp, ht, _, hk⟩ := tablaDeCodigos_spec entrada hne
  obtain ⟨_, h2⟩ := comprimirArchivo_eq entrada hne
  have hlen : 2 ≤ (hojas r).length := by
    have := two_le_length_of_ne ((calcularFrecuencias entrada).map Prod.fst) a b
      ((calcularFrecuencias_claves entrada a).mpr ha)
      ((calcularFrecuencias_claves entrada b).mpr hb) hab
    rw [hp.length_eq]
    simpa using this
  have hnh := esHoja_false_of_hojas r hbf hlen
  have htg : tablaDeCodigos entrada = generarCodigos r [] [] := by
    simp only [tablaDeCodigos, hr]
  refine ⟨r, hr, ?_, ?_⟩
  · rw [h2, htg]
  · rw [h2, ht]
    exact recorrer_codificado r hbf hnh entrada (fun x hx => by
      rw [← ht]; exact (hk x).mpr hx)

/-- C17, instance: the input `00 01 01 02`. -/
theorem ida_y_vuelta_sobre_el_arbol_witness :
    (∃ a ∈ ([0, 1, 1, 2] : List Nat), ∃ b ∈ ([0, 1, 1, 2] : List Nat), a ≠ b) ∧
    ∃ raiz, construirArbol (calcularFrecuencias [0, 1, 1, 2]) = .ok raiz ∧
      textoCodificadoDe [0, 1, 1, 2]
        = ([0, 1, 1, 2] : List Nat).flatMap
            (fun c => (buscar (generarCodigos raiz [] []) c).getD []) ∧
      recorrer raiz raiz (textoCodificadoDe [0, 1, 1, 2]) = .ok [0, 1, 1, 2] :=
  ⟨⟨0, by decide, 1, by decide, by decide⟩,
    ida_y_vuelta_sobre_el_arbol [0, 1, 1, 2] ⟨0, by decide, 1, by decide, by decide⟩⟩

/-! ## Truncated containers -/

theorem leerArchivoBinario_contenedor (d : DescompresorHuffman) (tabla : Mapa (List Bool))
    (resto : List Nat) (hl : tabla.length < 2 ^ 64)
    (h : ∀ p ∈ tabla, p.1 < 256 ∧ p.2.length ≤ 64) :
    leerArchivoBinario d (bytes64 tabla.length ++ tabla.flatMap escribirEntrada ++ resto)
      = .ok (DescompresorHuffman.mk
          (ArbolHuffman.mk d.arbol.raiz (tabla.foldl (fun m p => asignar m p.1 p.2) [])),
        resto.flatMap (cadenaDeBitset 8)) := by
  have e1 : (bytes64 tabla.length ++ tabla.flatMap escribirEntrada ++ resto).take 8
      = bytes64 tabla.length := by
    rw [List.append_assoc]
    exact List.take_left' (bytes64_length _)
  have e2 : (bytes64 tabla.length ++ tabla.flatMap escribirEntrada ++ resto).drop 8
      = tabla.flatMap escribirEntrada ++ resto := by
    rw [List.append_assoc]
    exact List.drop_left' (bytes64_length _)
  have e3 : ¬ (bytes64 tabla.length ++ tabla.flatMap escribirEntrada ++ resto).length < 8 := by
    simp only [List.length_append, bytes64_length]
    omega
  simp only [leerArchivoBinario, if_neg e3, e1, e2, deBytes_bytes64 _ hl,
    leerTabla_escribir tabla _ [] h]

theorem cadenas_dropLast (bs : List Nat) (hne : bs ≠ []) :
    bs.dropLast.flatMap (cadenaDeBitset 8)
      = (bs.flatMap (cadenaDeBitset 8)).take ((bs.flatMap (cadenaDeBitset 8)).length - 8) := by
  rcases List.eq_nil_or_concat bs with h | ⟨P, z, h⟩
  · exact absurd h hne
  · subst h
    rw [List.concat_eq_append, List.dropLast_concat, List.flatMap_append]
    simp only [List.flatMap_cons, List.flatMap_nil, List.append_nil, List.length_append,
      cadenaDeBitset_length, Nat.add_sub_cancel]
    exact (List.take_left' rfl).symm

/-- C11, counterexample: the container of the input `00 01` with its last byte
removed is read without any failure and `descomprimirArchivo` ends normally
with an empty output, which differs from the input; the container of the
input `41` with its last byte removed makes `leerArchivoBinario` use a
variable that no read has filled (undefined behaviour, no failure reported). -/
theorem truncado_decodifica_otra_cosa :
    comprimirArchivo [0, 1]
      = .ok [2, 0, 0, 0, 0, 0, 0, 0, 0, 1, 0, 0, 0, 0, 0, 0, 0, 0,
          1, 1, 1, 0, 0, 0, 0, 0, 0, 0, 1] ∧
    leerArchivoBinario descompresorNuevo
        ([2, 0, 0, 0, 0, 0, 0, 0, 0, 1, 0, 0, 0, 0, 0, 0, 0, 0,
          1, 1, 1, 0, 0, 0, 0, 0, 0, 0, 1] : List Nat).dropLast
      = .ok (DescompresorHuffman.mk (ArbolHuffman.mk .nulo [(0, [false]), (1, [true])]), []) ∧
    descomprimirArchivo descompresorNuevo
        ([2, 0, 0, 0, 0, 0, 0, 0, 0, 1, 0, 0, 0, 0, 0, 0, 0, 0,
          1, 1, 1, 0, 0, 0, 0, 0, 0, 0, 1] : List Nat).dropLast
      = .ok [] ∧
    comprimirArchivo [65] = .ok [1, 0, 0, 0, 0, 0, 0, 0, 65, 0, 0, 0, 0, 0, 0, 0, 0, 0] ∧
    descomprimirArchivo descompresorNuevo
        ([1, 0, 0, 0, 0, 0, 0, 0, 65, 0, 0, 0, 0, 0, 0, 0, 0, 0] : List Nat).dropLast
      = .error .indefinido :=
  ⟨rfl, rfl, rfl, rfl, rfl⟩

/-- C11, amended: truncation of the payload is not detected.  For every
non-empty input of bytes whose codes have at most 64 bits and whose encoded
bit sequence is not empty, and every state of the decompressor,
`leerArchivoBinario` on the container with its last byte removed reports no
failure: it returns the same code table and the bit string of the complete
container without its last 8 bits, and `descomprimirArchivo` walks that
shorter bit string from `arbol.raiz` like any other. -/
theorem truncado_sin_detectar (d : DescompresorHuffman) (entrada : List Nat)
    (hne : entrada ≠ []) (hb : ∀ x ∈ entrada, x < 256)
    (h64 : ∀ p ∈ tablaDeCodigos entrada, p.2.length ≤ 64)
    (htexto : textoCodificadoDe entrada ≠ []) :
    ∃ c bits, comprimirArchivo entrada = .ok c ∧
      leerArchivoBinario d c
        = .ok (DescompresorHuffman.mk (ArbolHuffman.mk d.arbol.raiz (tablaDeCodigos entrada)),
            bits) ∧
      leerArchivoBinario d c.dropLast
        = .ok (DescompresorHuffman.mk (ArbolHuffman.mk d.arbol.raiz (tablaDeCodigos entrada)),
            bits.take (bits.length - 8)) ∧
      descomprimirArchivo d c.dropLast
        = recorrer d.arbol.raiz d.arbol.raiz (bits.take (bits.length - 8)) := by
  obtain ⟨h1, _⟩ := comprimirArchivo_eq entrada hne
  obtain ⟨_, _, _, _, _, hnd, hk⟩ := tablaDeCodigos_spec entrada hne
  have hl := tablaDeCodigos_length_lt entrada hne hb
  have hh : ∀ p ∈ tablaDeCodigos entrada, p.1 < 256 ∧ p.2.length ≤ 64 :=
    fun p hp => ⟨hb p.1 ((hk p.1).mp (List.mem_map_of_mem Prod.fst hp)), h64 p hp⟩
  have e : (tablaDeCodigos entrada).foldl (fun m p => asignar m p.1 p.2) []
      = tablaDeCodigos entrada := by
    rw [foldl_asignar_nuevos _ [] (by simpa using hnd)]
    simp
  have hmod : (tablaDeCodigos entrada).length % 2 ^ 64 = (tablaDeCodigos entrada).length :=
    Nat.mod_eq_of_lt hl
  have hpay : escribirTexto (textoCodificadoDe entrada).length (textoCodificadoDe entrada)
      ≠ [] := by
    intro hnil
    have := escribirTexto_length _ (textoCodificadoDe entrada) (le_refl _)
    rw [hnil] at this
    have hpos : 0 < (textoCodificadoDe entrada).length := List.length_pos.mpr htexto
    simp only [List.length_nil] at this
    omega
  have hc : guardarArchivoBinario (tablaDeCodigos entrada) (textoCodificadoDe entrada)
      = bytes64 (tablaDeCodigos entrada).length
        ++ (tablaDeCodigos entrada).flatMap escribirEntrada
        ++ escribirTexto (textoCodificadoDe entrada).length (textoCodificadoDe entrada) := by
    simp only [guardarArchivoBinario, hmod]
  have hcd : (guardarArchivoBinario (tablaDeCodigos entrada) (textoCodificadoDe entrada)).dropLast
      = bytes64 (tablaDeCodigos entrada).length
        ++ (tablaDeCodigos entrada).flatMap escribirEntrada
        ++ (escribirTexto (textoCodificadoDe entrada).length
            (textoCodificadoDe entrada)).dropLast := by
    rw [hc, List.dropLast_append_of_ne_nil _ hpay]
  have r1 := leerArchivoBinario_contenedor d (tablaDeCodigos entrada)
    (escribirTexto (textoCodificadoDe entrada).length (textoCodificadoDe entrada)) hl hh
  have r2 := leerArchivoBinario_contenedor d (tablaDeCodigos entrada)
    (escribirTexto (textoCodificadoDe entrada).length (textoCodificadoDe entrada)).dropLast hl hh
  rw [e, ← hc] at r1
  rw [e, ← hcd, cadenas_dropLast _ hpay] at r2
  refine ⟨_, _, h1, r1, r2, ?_⟩
  simp only [descomprimirArchivo, r2]

/-- C11, amended, instance: the input `00 01 01` read by a new decompressor. -/
theorem truncado_sin_detectar_witness :
    ([0, 1, 1] : List Nat) ≠ [] ∧ (∀ x ∈ ([0, 1, 1] : List Nat), x < 256) ∧
    (∀ p ∈ tablaDeCodigos [0, 1, 1], p.2.length ≤ 64) ∧
    textoCodificadoDe [0, 1, 1] ≠ [] ∧
    ∃ c bits, comprimirArchivo [0, 1, 1] = .ok c ∧
      leerArchivoBinario descompresorNuevo c
        = .ok (DescompresorHuffman.mk
            (ArbolHuffman.mk descompresorNuevo.arbol.raiz (tablaDeCodigos [0, 1, 1])), bits) ∧
      leerArchivoBinario descompresorNuevo c.dropLast
        = .ok (DescompresorHuffman.mk
            (ArbolHuffman.mk descompresorNuevo.arbol.raiz (tablaDeCodigos [0, 1, 1])),
            bits.take (bits.length - 8)) ∧
      descomprimirArchivo descompresorNuevo c.dropLast
        = recorrer descompresorNuevo.arbol.raiz descompresorNuevo.arbol.raiz
            (bits.take (bits.length - 8)) :=
  ⟨by decide, by decide, by decide, by decide,
    truncado_sin_detectar descompresorNuevo [0, 1, 1] (by decide) (by decide) (by decide)
      (by decide)⟩

/-! ## Consequences of optimality -/

/-- Without overflow, the tree returned by `construirArbol` costs no more than
any tree over the same symbols (the statement of optimality, for a given
result). -/
theorem construirArbol_minimo (frecuencias : Mapa Int) (hne : frecuencias ≠ [])
    (hnd : (frecuencias.map Prod.fst).Nodup) (hpos : ∀ p ∈ frecuencias, 0 < p.2)
    (hsuma : (frecuencias.map Prod.snd).sum < 2147483648)
    (r : NodoHuffman) (hr : construirArbol frecuencias = .ok r) (t : NodoHuffman)
    (ht : ((hojas t).map Prod.fst).Perm (frecuencias.map Prod.fst)) :
    longitudPonderada (cuentaDe frecuencias) r 0
      ≤ longitudPonderada (cuentaDe frecuencias) t 0 := by
  obtain ⟨r2, hr2, hb, hw, hp, hc⟩ := construirArbol_cota frecuencias hne
    (sinDesborde_of_pos frecuencias hpos hsuma)
  have e2 : r2 = r := by
    rw [hr] at hr2; injection hr2 with e; exact e.symm
  rw [e2] at hb hw hp hc
  have hraiz := longitudPonderada_eq_costoInterno (cuentaDe frecuencias) r hb hw
    (fun p hpm => (cuentaDe_of_mem frecuencias hnd p (hp.subset hpm)).symm) 0
  have htne : t ≠ .nulo := by
    intro e
    subst e
    simp only [hojas, List.map_nil] at ht
    have := ht.length_eq
    simp only [List.length_nil, List.length_map] at this
    exact hne (List.length_eq_zero.mp this.symm)
  have hcu : ∀ p ∈ hojas t, 0 ≤ cuentaDe frecuencias p.1 := by
    intro p hpm
    have : p.1 ∈ frecuencias.map Prod.fst := ht.subset (List.mem_map_of_mem Prod.fst hpm)
    simp only [List.mem_map] at this
    obtain ⟨q, hq, e⟩ := this
    rw [← e, cuentaDe_of_mem frecuencias hnd q hq]
    exact le_of_lt (hpos q hq)
  obtain ⟨T, _, h2, h3⟩ := contraer_spec (cuentaDe frecuencias) t htne hcu
  have hperm : (pesosDe T).Perm (frecuencias.map Prod.snd) := by
    rw [h2]
    have e1 : (hojas t).map (fun p => cuentaDe frecuencias p.1)
        = ((hojas t).map Prod.fst).map (cuentaDe frecuencias) := by
      simp [List.map_map, Function.comp_def]
    have e2 : frecuencias.map Prod.snd
        = (frecuencias.map Prod.fst).map (cuentaDe frecuencias) := by
      rw [List.map_map]
      apply List.map_congr_left
      intro p hpm
      exact (cuentaDe_of_mem frecuencias hnd p hpm).symm
    rw [e1, e2]
    exact ht.map _
  have k1 := hc T hperm
  have k2 := h3 0
  simp only [Nat.cast_zero, zero_mul, add_zero] at hraiz k2
  linarith

theorem construirArbol_dos (a b : Nat) (x y : Int) :
    construirArbol [(a, x), (b, y)]
      = .ok (if x > y then .nodo 0 (sumaInt y x) (nuevoNodo b y) (nuevoNodo a x)
          else .nodo 0 (sumaInt x y) (nuevoNodo a x) (nuevoNodo b y)) := by
  by_cases h : x > y
  · simp [construirArbol, encolarHojas, colaPush, push_heap_hueco, push_heap_aux, combinar,
      combinarPaso, colaTop, colaPop, adjust_heap, adjust_heap_bajar, elem, comparar,
      frecuenciaDe, nuevoNodo, h]
  · simp [construirArbol, encolarHojas, colaPush, push_heap_hueco, push_heap_aux, combinar,
      combinarPaso, colaTop, colaPop, adjust_heap, adjust_heap_bajar, elem, comparar,
      frecuenciaDe, nuevoNodo, h]

theorem longitudPonderada_congr (c1 c2 : Nat → Int) (t : NodoHuffman) :
    (∀ p ∈ hojas t, c1 p.1 = c2 p.1) →
    ∀ prof : Nat, longitudPonderada c1 t prof = longitudPonderada c2 t prof := by
  induction t with
  | nulo => intro _ prof; rfl
  | nodo c f i d ihi ihd =>
    intro h prof
    by_cases hh : esHoja (.nodo c f i d) = true
    · have := h (c, f) (by simp [hojas, hh])
      simp only at this
      simp only [longitudPonderada, hh, if_true, this]
    · have hh' : esHoja (.nodo c f i d) = false := by simpa using hh
      rw [longitudPonderada_nodo _ _ _ _ _ _ hh', longitudPonderada_nodo _ _ _ _ _ _ hh']
      rw [hojas_nodo _ _ _ _ hh'] at h
      rw [ihi (fun p hp => h p (by simp [hp])), ihd (fun p hp => h p (by simp [hp]))]

/-- C13, amended: `construirArbol` removes nodes in the order of their weight
alone (the comparator looks only at `frecuencia`); among nodes of equal weight
the position in the queue decides, so the tree depends on the order in which
the entries of the table are iterated and inserted: for a table of two
entries, such as `{0x00: 256, 0x01: 256}`, the entry iterated first becomes
the left child (code `0`) unless the other one is strictly lighter, and the
root carries the `int` sum of the two counts (`sumaInt`, which wraps around at
`2^31`).  What does not depend on the iteration order (for distinct keys and
positive counts whose sum is below `2^31`, so that no sum overflows) are the
leaves of the tree and its weighted path length. -/
theorem solo_el_costo_es_independiente_del_orden (f1 f2 : Mapa Int) (hperm : f1.Perm f2)
    (hne : f1 ≠ []) (hnd : (f1.map Prod.fst).Nodup) (hpos : ∀ p ∈ f1, 0 < p.2)
    (hsuma : (f1.map Prod.snd).sum < 2147483648) :
    (∃ r1 r2, construirArbol f1 = .ok r1 ∧ construirArbol f2 = .ok r2 ∧
      (hojas r1).Perm (hojas r2) ∧
      longitudPonderada (cuentaDe f1) r1 0 = longitudPonderada (cuentaDe f1) r2 0) ∧
    (∀ (a b : Nat) (x y : Int),
      construirArbol [(a, x), (b, y)]
        = .ok (if x > y then .nodo 0 (sumaInt y x) (nuevoNodo b y) (nuevoNodo a x)
            else .nodo 0 (sumaInt x y) (nuevoNodo a x) (nuevoNodo b y))) := by
  refine ⟨?_, construirArbol_dos⟩
  have hne2 : f2 ≠ [] := by
    intro e
    rw [e] at hperm
    exact hne (List.perm_nil.mp hperm)
  have hnd2 : (f2.map Prod.fst).Nodup := (hperm.map Prod.fst).nodup_iff.mp hnd
  have hpos2 : ∀ p ∈ f2, 0 < p.2 := fun p hp => hpos p (hperm.symm.subset hp)
  have hsuma2 : (f2.map Prod.snd).sum < 2147483648 := by
    rw [← (hperm.map Prod.snd).sum_eq]
    exact hsuma
  obtain ⟨r1, hr1, _, hp1⟩ := construirArbol_estructura f1 hne
  obtain ⟨r2, hr2, _, hp2⟩ := construirArbol_estructura f2 hne2
  have hh : (hojas r1).Perm (hojas r2) := hp1.trans (hperm.trans hp2.symm)
  refine ⟨r1, r2, hr1, hr2, hh, ?_⟩
  have k1 := construirArbol_minimo f1 hne hnd hpos hsuma r1 hr1 r2
    ((hp2.map Prod.fst).trans (hperm.symm.map Prod.fst))
  have k2 := construirArbol_minimo f2 hne2 hnd2 hpos2 hsuma2 r2 hr2 r1
    ((hp1.map Prod.fst).trans (hperm.map Prod.fst))
  have hcu : ∀ p ∈ f1, cuentaDe f2 p.1 = cuentaDe f1 p.1 := by
    intro p hp
    rw [cuentaDe_of_mem f1 hnd p hp, cuentaDe_of_mem f2 hnd2 p (hperm.subset hp)]
  have c1 := longitudPonderada_congr (cuentaDe f2) (cuentaDe f1) r1
    (fun p hp => hcu p (hp1.subset hp)) 0
  have c2 := longitudPonderada_congr (cuentaDe f2) (cuentaDe f1) r2
    (fun p hp => hcu p (hperm.symm.subset (hp2.subset hp))) 0
  rw [c1, c2] at k2
  exact le_antisymm k1 k2

/-- C13, amended, instance: the table `a:5 b:9 c:12` iterated in two orders. -/
theorem solo_el_costo_es_independiente_del_orden_witness :
    ([(97, 5), (98, 9), (99, 12)] : Mapa Int).Perm [(99, 12), (97, 5), (98, 9)] ∧
    ([(97, 5), (98, 9), (99, 12)] : Mapa Int) ≠ [] ∧
    (([(97, 5), (98, 9), (99, 12)] : Mapa Int).map Prod.fst).Nodup ∧
    (∀ p ∈ ([(97, 5), (98, 9), (99, 12)] : Mapa Int), 0 < p.2) ∧
    (([(97, 5), (98, 9), (99, 12)] : Mapa Int).map Prod.snd).sum < 2147483648 ∧
    (∃ r1 r2, construirArbol [(97, 5), (98, 9), (99, 12)] = .ok r1 ∧
      construirArbol [(99, 12), (97, 5), (98, 9)] = .ok r2 ∧
      (hojas r1).Perm (hojas r2) ∧
      longitudPonderada (cuentaDe [(97, 5), (98, 9), (99, 12)]) r1 0
        = longitudPonderada (cuentaDe [(97, 5), (98, 9), (99, 12)]) r2 0) ∧
    (∀ (a b : Nat) (x y : Int),
      construirArbol [(a, x), (b, y)]
        = .ok (if x > y then .nodo 0 (sumaInt y x) (nuevoNodo b y) (nuevoNodo a x)
            else .nodo 0 (sumaInt x y) (nuevoNodo a x) (nuevoNodo b y))) :=
  ⟨by decide, by decide, by decide, by decide, by decide,
    solo_el_costo_es_independiente_del_orden _ _ (by decide) (by decide) (by decide)
      (by decide) (by decide)⟩

/-! ## Frequency monotonicity -/

end Huffman
